import Mathlib

/-!
Verification of the TestFileManager resource-manager specification against
its C++ source (`ResourcesManager.cpp`).  The definitions below are a
shallow embedding of the source: external collaborators (directory walks,
the zip reader, `stat`, `fopen`, the random-id generator) appear as
explicit oracle arguments, machine-integer conversions are modelled as
arithmetic mod 2^w on `Int`/`Nat`, and C++ exceptions become explicit
`threw` flags in outcome structures.
-/

namespace TestFileManager

/-! ## String and path utilities (source: utility functions section) -/

/-- Model of C `tolower` in the C locale: ASCII upper-case letters map to
lower case, all other characters are unchanged. -/
def tolowerChar (c : Char) : Char :=
  if 65 ≤ c.toNat ∧ c.toNat ≤ 90 then Char.ofNat (c.toNat + 32) else c

/-- Model of `std::transform(key.begin(), key.end(), key.begin(), ::tolower)`. -/
def lowerStr (s : String) : String := ⟨s.data.map tolowerChar⟩

/-- Model of `basename`: the substring after the last occurrence of a
forward slash or backslash (`path.find_last_of("/\\")`), or the whole
string when neither occurs. -/
def basenameStr (s : String) : String :=
  ⟨(s.data.reverse.takeWhile (fun c => !(c = '/' || c = '\\'))).reverse⟩

/-- Model of `combine`: append every non-empty component followed by `"/"`
to a character accumulator, then drop the trailing separator
(`outString.substr(0, outString.size() - 1)`). -/
def combine (l : List String) : String :=
  ⟨(l.foldl (fun acc c => if c = "" then acc else acc ++ c.data ++ ['/']) []).dropLast⟩

/-- Model of the loop body of `replaceAll` on character lists.  The fuel
argument (instantiated with the length of the subject) bounds the
recursion; each step either consumes the matched search pattern or one
character, exactly as the C++ loop advances `pos`.  The replacement text
is never rescanned, matching `pos += replace.length()`. -/
def replaceAllAux (search repl : List Char) : Nat → List Char → List Char
  | 0, s => s
  | _ + 1, [] => []
  | fuel + 1, c :: cs =>
    if search.isPrefixOf (c :: cs) then
      repl ++ replaceAllAux search repl fuel ((c :: cs).drop search.length)
    else
      c :: replaceAllAux search repl fuel cs

/-- Model of `replaceAll(s, search, replace)`. -/
def replaceAllStr (s search repl : String) : String :=
  ⟨replaceAllAux search.data repl.data s.data.length s.data⟩

/-- Model of `std::replace(key.begin(), key.end(), from, to)`. -/
def replaceChar (s : String) (a b : Char) : String :=
  ⟨s.data.map (fun c => if c = a then b else c)⟩

/-- Model of `std::string::find(pat) != npos`: some suffix of `s` starts
with `pat`. -/
def containsSub (s pat : String) : Bool :=
  (List.range (s.data.length + 1)).any (fun i => pat.data.isPrefixOf (s.data.drop i))

/-- Lexicographic comparison of character lists by code point, modelling
`std::string::operator<` (byte-wise comparison; the sources only compare
ASCII tags, where byte order and code-point order agree). -/
def charListLt : List Char → List Char → Bool
  | [], [] => false
  | [], _ :: _ => true
  | _ :: _, [] => false
  | a :: as, b :: bs =>
    if a.toNat < b.toNat then true
    else if b.toNat < a.toNat then false
    else charListLt as bs

/-- Model of `std::string` strict less-than. -/
def strLt (a b : String) : Bool := charListLt a.data b.data

/-- Model of the C check `name[0] == '.'` on a `dirent` name. -/
def headIsDot (s : String) : Bool := s.data.head? = some '.'

/-- Model of `s.compare(0, pre.size(), pre) == 0`: the string starts with
the given prefix. -/
def startsWithModel (s pre : String) : Bool := pre.data.isPrefixOf s.data

/-- Model of `s[s.size() - 1] == c` (an empty entry name, for which the
C++ index expression is out of range, is modelled as not matching). -/
def lastCharIs (s : String) (c : Char) : Bool := s.data.getLast? = some c

/-- Model of `s.substr(n, s.size() - n)`. -/
def dropChars (s : String) (n : Nat) : String := ⟨s.data.drop n⟩

/-- Width of `size_t` in the modelled LP64 environment. -/
def sizeTBits : Nat := 64

/-- Conversion of a C++ signed integer value to `size_t`: reduction
modulo 2 ^ 64. -/
def toSizeT (i : Int) : Nat := (i % ((2 : Int) ^ sizeTBits)).toNat

/-- Model of `getFileSize`: `stat` either succeeds with `st_size` or the
function returns `-1`.  The `Option Int` argument is the stat oracle. -/
def getFileSizeModel : Option Int → Int
  | some sz => sz
  | none => -1

/-! ## Data model (source: `FileRecord`, `StreamRecord`, `ResourcesManagerImpl`) -/

inductive FileType where
  | RegularFile
  | CompressedFile
  | StoredFile
deriving DecidableEq, Repr

structure FileRecord where
  filename : String
  fileType : FileType
  size : Nat
  languageId : String
  category : String
  filePath : String
  relativePath : String
  zipFilePath : String
  zipFilePos : Nat
deriving DecidableEq, Repr

structure StreamRecord where
  fileRecord : FileRecord
  randomValue : Int
  fileOpen : Bool
  zipOpen : Bool
deriving DecidableEq, Repr

/-- Generic association-list lookup, modelling `std::map::find` (the key
order of the underlying tree does not affect lookups). -/
def lookupKey {κ α : Type} [DecidableEq κ] : List (κ × α) → κ → Option α
  | [], _ => none
  | (k, v) :: rest, key => if key = k then some v else lookupKey rest key

/-- Model of `std::map<std::string,std::string>::operator[] = v`: the maps
that the source iterates over are kept sorted by key, and an existing
binding is replaced. -/
def sortedUpdate : List (String × String) → String → String → List (String × String)
  | [], k, v => [(k, v)]
  | (k', v') :: rest, k, v =>
    if strLt k k' then (k, v) :: (k', v') :: rest
    else if k = k' then (k, v) :: rest
    else (k', v') :: sortedUpdate rest k v

/-- Model of `filenameToRecordMap[key].push_back(rec)`: append to the
record list of `key`, creating the entry when absent. -/
def mapAppendRec : List (String × List FileRecord) → String → FileRecord →
    List (String × List FileRecord)
  | [], k, r => [(k, [r])]
  | (k', l) :: rest, k, r =>
    if k = k' then (k', l ++ [r]) :: rest else (k', l) :: mapAppendRec rest k r

def mapAppendMany (m : List (String × List FileRecord))
    (pairs : List (String × FileRecord)) : List (String × List FileRecord) :=
  pairs.foldl (fun acc p => mapAppendRec acc p.1 p.2) m

/-- Model of `std::map::erase(key)`. -/
def eraseKey {κ α : Type} [DecidableEq κ] (l : List (κ × α)) (k : κ) : List (κ × α) :=
  l.filter (fun p => p.1 ≠ k)

/-- State of `ResourcesManagerImpl`. -/
structure ManagerState where
  enableTrace : Bool
  rootFoldersList : List String
  filenameToRecordMap : List (String × List FileRecord)
  languageId : String
  relativeFolderToLanguageIdMap : List (String × String)
  relativeFolderToCategoryMap : List (String × String)
  enabledCategories : List String
  openStreams : List (Int × StreamRecord)
  searchByRelativePaths : Bool
  searchRootsList : List String
deriving DecidableEq, Repr

/-- State established by the constructor, which calls `reset()` on a
default-constructed impl (`openStreams` is empty). -/
def initState : ManagerState :=
  { enableTrace := false
    rootFoldersList := []
    filenameToRecordMap := []
    languageId := ""
    relativeFolderToLanguageIdMap := []
    relativeFolderToCategoryMap := []
    enabledCategories := []
    openStreams := []
    searchByRelativePaths := false
    searchRootsList := [""] }

/-! ## Key construction and the resolver (source: `makeKey`, `findFileRecord`) -/

/-- Model of `makeKey`: take the basename unless `searchByRelativePaths`,
lower-case, replace the two-character sequence of two backslashes by a
slash, then replace every remaining backslash character by a slash. -/
def makeKey (searchByRelativePaths : Bool) (filename : String) : String :=
  let key := if searchByRelativePaths then filename else basenameStr filename
  let key := lowerStr key
  let key := replaceAllStr key "\\\\" "/"
  replaceChar key '\\' '/'

/-- Admissibility filter of `findFileRecord`:
`(languageId.empty() || rec.languageId == languageId) &&
 (rec.category.empty() || enabledCategories.count(rec.category) > 0)`. -/
def admissibleB (st : ManagerState) (r : FileRecord) : Bool :=
  (st.languageId = "" || r.languageId = st.languageId) &&
  (r.category = "" || st.enabledCategories.contains r.category)

/-- Comparator of the candidate set:
`rec1->category > rec2->category || rec1->languageId > rec2->languageId`. -/
def recLess (r1 r2 : FileRecord) : Bool :=
  strLt r2.category r1.category || strLt r2.languageId r1.languageId

/-- Model of `std::set::insert` with the comparator above: an ordered-list
insertion that places the new element before the first element it
compares less than, refusing the insertion when the element just before
that position does not compare less than the new element (the
duplicate-equivalence check of tree insertion). -/
def setInsert (x : FileRecord) : List FileRecord → List FileRecord
  | [] => [x]
  | y :: ys =>
    if recLess x y then x :: y :: ys
    else if !recLess y x then y :: ys
    else y :: setInsert x ys

/-- Candidate collection of the per-key loop: iterate over the stored
record list, inserting every record passing the admissibility filter. -/
def collectCandidates (st : ManagerState) (records : List FileRecord) : List FileRecord :=
  records.foldl (fun acc r => if admissibleB st r then setInsert r acc else acc) []

/-- Records stored under the key that `findFileRecord` derives for a
given search root and query. -/
def recordsAt (st : ManagerState) (root q : String) : List FileRecord :=
  (lookupKey st.filenameToRecordMap
    (makeKey st.searchByRelativePaths
      (combine [root, makeKey st.searchByRelativePaths q]))).getD []

/-- Admissible records of the first search root whose key lookup yields at
least one admissible record (the loop of `findFileRecord` breaks at the
first root that leaves the candidate set non-empty). -/
def winningRecords (st : ManagerState) (q : String) : List String → List FileRecord
  | [] => []
  | root :: roots =>
    match lookupKey st.filenameToRecordMap
      (makeKey st.searchByRelativePaths
        (combine [root, makeKey st.searchByRelativePaths q])) with
    | none => winningRecords st q roots
    | some records =>
      if records.length = 0 then winningRecords st q roots
      else
        let adm := records.filter (admissibleB st)
        if adm.isEmpty then winningRecords st q roots else adm

/-- Search-root loop of `findFileRecord`: returns the candidate set built
at the first root yielding at least one admissible record. -/
def collectFromRoots (st : ManagerState) (q : String) : List String → List FileRecord
  | [] => []
  | root :: roots =>
    match lookupKey st.filenameToRecordMap
      (makeKey st.searchByRelativePaths
        (combine [root, makeKey st.searchByRelativePaths q])) with
    | none => collectFromRoots st q roots
    | some records =>
      if records.length = 0 then collectFromRoots st q roots
      else
        let cands := collectCandidates st records
        if cands.isEmpty then collectFromRoots st q roots else cands

/-- Model of `findFileRecord`: the first element of the candidate set
(`*candidatesList.begin()`), or `none` when the set is empty. -/
def findFileRecord (st : ManagerState) (filename : String) : Option FileRecord :=
  (collectFromRoots st filename st.searchRootsList).head?

/-- Model of `exists(filename)`. -/
def existsQ (st : ManagerState) (filename : String) : Bool :=
  (findFileRecord st filename).isSome

/-- Model of `getSize(filename)`. -/
def getSize (st : ManagerState) (filename : String) : Nat :=
  match findFileRecord st filename with
  | none => 0
  | some r => r.size

/-! ## Directory indexer (source: `addFolderRecursive`) -/

/-- Oracle for the directory-walk collaborator: one value of this type is
the listing that `opendir`/`readdir` would produce for a folder, in
`readdir` order.  `consDirOk` is a subdirectory whose own `opendir`
succeeds with the given listing; `consDirFail` is a subdirectory whose
`opendir` fails (`if (!dp) return`). -/
inductive DirTree where
  | nilEntries
  | consFile (name : String) (statSize : Option Int) (rest : DirTree)
  | consDirOk (name : String) (sub : DirTree) (rest : DirTree)
  | consDirFail (name : String) (rest : DirTree)
deriving DecidableEq, Repr

/-- Model of `addFolderRecursive`, returning the `(key, record)` pairs it
pushes into `filenameToRecordMap`, in discovery order.  The entry whose
name starts with a dot is skipped; a directory entry updates the language
by exact relative-path lookup and the category by directory-name lookup,
a category match leaving `relativeFolderInMap` unchanged so the folder
name does not enter the key. -/
def walkEntries (langMap catMap : List (String × String)) (sbrp : Bool)
    (rootFolder relativeFolder relativeFolderInMap languageId category : String) :
    DirTree → List (String × FileRecord)
  | .nilEntries => []
  | .consFile name statSize rest =>
    (if headIsDot name then []
     else
       let relativePath := combine [relativeFolder, name]
       let filePath := combine [rootFolder, relativePath]
       let fileRec : FileRecord :=
         { filename := name
           fileType := .RegularFile
           size := toSizeT (getFileSizeModel statSize)
           languageId := languageId
           category := category
           filePath := filePath
           relativePath := relativePath
           zipFilePath := ""
           zipFilePos := 0 }
       [(makeKey sbrp (combine [relativeFolderInMap, name]), fileRec)]) ++
    walkEntries langMap catMap sbrp rootFolder relativeFolder relativeFolderInMap
      languageId category rest
  | .consDirOk name sub rest =>
    (if headIsDot name then []
     else
       let newRelativeFolder := combine [relativeFolder, name]
       let newLanguageId := (lookupKey langMap newRelativeFolder).getD languageId
       match lookupKey catMap name with
       | some c =>
         walkEntries langMap catMap sbrp rootFolder newRelativeFolder
           relativeFolderInMap newLanguageId c sub
       | none =>
         walkEntries langMap catMap sbrp rootFolder newRelativeFolder
           (combine [relativeFolderInMap, name]) newLanguageId category sub) ++
    walkEntries langMap catMap sbrp rootFolder relativeFolder relativeFolderInMap
      languageId category rest
  | .consDirFail _ rest =>
    walkEntries langMap catMap sbrp rootFolder relativeFolder relativeFolderInMap
      languageId category rest

/-- Records produced by `addRootFolder(rootFolder)`:
`addFolderRecursive(rootFolder, "", "", "", "")`. -/
def rootFolderRecords (st : ManagerState) (rootFolder : String) (tree : DirTree) :
    List (String × FileRecord) :=
  walkEntries st.relativeFolderToLanguageIdMap st.relativeFolderToCategoryMap
    st.searchByRelativePaths rootFolder "" "" "" "" tree

/-! ## Archive indexer (source: `addArchive`) -/

/-- One zip entry as yielded by `unzGoToFirstFile2` / `unzGoToNextFile2`:
the raw entry name, the uncompressed size, and the opaque position token
of `unzGetFilePos`. -/
structure ArchiveEntry where
  name : String
  uncompressedSize : Nat
  pos : Nat
deriving DecidableEq, Repr

/-- Oracle for the archive enumeration: `fail` is a step returning an
error other than `UNZ_END_OF_LIST_OF_FILE`, `done` is a step returning
`UNZ_END_OF_LIST_OF_FILE`, and `entry` yields the current entry together
with the success of its `unzGetFilePos` call. -/
inductive ZipEnum where
  | fail
  | done
  | entry (e : ArchiveEntry) (posOk : Bool) (rest : ZipEnum)
deriving DecidableEq, Repr

/-- Outcome of an `addArchive` call.  `threw` records whether an exception
propagated to the caller; `openedHandle` whether `unzOpen` succeeded
during the call; `handleClosed` whether `unzClose` ran on that handle
before the call returned. -/
structure ArchiveOutcome where
  finalState : ManagerState
  threw : Bool
  openedHandle : Bool
  handleClosed : Bool
deriving DecidableEq, Repr

/-- Record insertion for one accepted archive entry: language by
prefix match of the raw name against `combine({rootFolder, folder})` over
the (sorted) language map, category by substring match of
`folder + "/"` against the raw name over the (sorted) category map, each
matching category folder component being deleted from the path used to
build the key. -/
def archiveEntryState (st : ManagerState) (archivePath rootFolder : String)
    (e : ArchiveEntry) : ManagerState :=
  let slashEndedRootFolder := rootFolder ++ "/"
  let shouldAddRecord : Bool :=
    !(lastCharIs e.name '/' ||
      (!(rootFolder = "") && !(startsWithModel e.name slashEndedRootFolder)))
  if shouldAddRecord then
    let rootFolderRelativePath :=
      if rootFolder = "" then e.name
      else dropChars e.name slashEndedRootFolder.length
    let lang := st.relativeFolderToLanguageIdMap.foldl
      (fun acc p => if startsWithModel e.name (combine [rootFolder, p.1]) then p.2 else acc) ""
    let catAndPath := st.relativeFolderToCategoryMap.foldl
      (fun (acc : String × String) p =>
        let pathComponentToSearch := p.1 ++ "/"
        if containsSub e.name pathComponentToSearch then
          (p.2, replaceAllStr acc.2 pathComponentToSearch "")
        else acc)
      ("", rootFolderRelativePath)
    let fileRec : FileRecord :=
      { filename := e.name
        fileType := .CompressedFile
        size := e.uncompressedSize
        languageId := lang
        category := catAndPath.1
        filePath := ""
        relativePath := rootFolderRelativePath
        zipFilePath := archivePath
        zipFilePos := e.pos }
    let key := makeKey st.searchByRelativePaths catAndPath.2
    { st with filenameToRecordMap := mapAppendRec st.filenameToRecordMap key fileRec }
  else st

/-- Body of the `do`/`while` loop of `addArchive`.  The duplicate check
tests the raw entry name against the whole `filenameToRecordMap`
(`count(filePath) != 0`) before the folder/root-folder skip.  Each throw
reaches the catch block, whose `if (zipFile) unzClose(zipFile)` reads the
outer declaration `unzFile zipFile = nullptr` — the inner
`unzFile zipFile = unzOpen(...)` shadows it — so the handle opened in the
try block is never closed (`handleClosed := false` on every path). -/
def stepArchiveEntry (st : ManagerState) (archivePath rootFolder : String)
    (e : ArchiveEntry) (posOk : Bool) : Option ManagerState :=
  if !posOk then none
  else if (lookupKey st.filenameToRecordMap e.name).isSome then none
  else some (archiveEntryState st archivePath rootFolder e)

def addArchiveLoop (archivePath rootFolder : String) (st : ManagerState)
    (e : ArchiveEntry) (posOk : Bool) : ZipEnum → ArchiveOutcome
  | .fail =>
    match stepArchiveEntry st archivePath rootFolder e posOk with
    | none => ⟨st, true, true, false⟩
    | some st' => ⟨st', true, true, false⟩
  | .done =>
    match stepArchiveEntry st archivePath rootFolder e posOk with
    | none => ⟨st, true, true, false⟩
    | some st' => ⟨st', false, true, false⟩
  | .entry e' posOk' rest' =>
    match stepArchiveEntry st archivePath rootFolder e posOk with
    | none => ⟨st, true, true, false⟩
    | some st' => addArchiveLoop archivePath rootFolder st' e' posOk' rest'

/-- Model of `addArchive(archivePath, rootFolder)`.  `openOk` is the
success of `unzOpen`; a failed open throws with no handle opened; a
first-enumeration step that is not `UNZ_OK` (error or end-of-list) throws
after a successful open. -/
def addArchive (st : ManagerState) (archivePath rootFolder : String)
    (openOk : Bool) (enum : ZipEnum) : ArchiveOutcome :=
  if !openOk then ⟨st, true, false, false⟩
  else
    match enum with
    | .fail => ⟨st, true, true, false⟩
    | .done => ⟨st, true, true, false⟩
    | .entry e posOk rest => addArchiveLoop archivePath rootFolder st e posOk rest

/-! ## Stream manager (source: `getStream`, `readData(int)`, `closeFile`) -/

/-- Outcome of a `getStream` call: the possibly updated state, whether an
exception propagated, and the handle of the returned `Stream` wrapper. -/
structure GetStreamOutcome where
  finalState : ManagerState
  threw : Bool
  handle : Option Int
deriving DecidableEq, Repr

/-- Insertion step of `getStream`: `openStreams.insert({handle, record})`
fails when the handle is already a key, in which case the function throws
(`if (!insertResult.second) throw`) instead of overwriting; otherwise the
pair is added and the handle wrapper is returned. -/
def insertOutcome (st : ManagerState) (rnd : Int) (sr : StreamRecord) : GetStreamOutcome :=
  if (lookupKey st.openStreams rnd).isSome then ⟨st, true, none⟩
  else ⟨{ st with openStreams := st.openStreams ++ [(rnd, sr)] }, false, some rnd⟩

/-- Model of `getStream(filename)`.  `rnd` is the value produced by the
`arc4random()` collaborator; `fopenOk` the success of `fopen` for a
regular file; `zipOpenOk`, `zipSeekOk`, `zipOpenCurOk` the successes of
`unzOpen`, `unzGoToFilePos` and `unzOpenCurrentFile`. -/
def getStream (st : ManagerState) (filename : String) (rnd : Int)
    (fopenOk zipOpenOk zipSeekOk zipOpenCurOk : Bool) : GetStreamOutcome :=
  match findFileRecord st filename with
  | none => ⟨st, false, none⟩
  | some rec =>
    match rec.fileType with
    | .RegularFile =>
      if !fopenOk then ⟨st, false, none⟩
      else insertOutcome st rnd
        { fileRecord := rec, randomValue := rnd, fileOpen := true, zipOpen := false }
    | _ =>
      if !zipOpenOk then ⟨st, true, none⟩
      else if !zipSeekOk then ⟨st, true, none⟩
      else if !zipOpenCurOk then ⟨st, true, none⟩
      else insertOutcome st rnd
        { fileRecord := rec, randomValue := rnd, fileOpen := false, zipOpen := true }

/-- Model of `readData(int handle, buffer, size)`.  `backendRet` is the
`int` result of `fread` or `unzReadCurrentFile` for a present handle; the
`int` is returned through the `size_t` return type. -/
def readDataH (st : ManagerState) (handle : Int) (backendRet : Int) : Nat :=
  match lookupKey st.openStreams handle with
  | none => 0
  | some _ => toSizeT backendRet

/-- Model of `closeFile(handle)`: a missing handle is a no-op returning 0;
otherwise the backend resource is released (`fcloseRet` the result of
`fclose` for a regular-file stream, 0 for an archive stream) and the
entry keyed by the record's `randomValue` is erased. -/
def closeFile (st : ManagerState) (handle : Int) (fcloseRet : Int) :
    ManagerState × Int :=
  match lookupKey st.openStreams handle with
  | none => (st, 0)
  | some sr =>
    let ret : Int :=
      match sr.fileRecord.fileType with
      | .RegularFile => if sr.fileOpen then fcloseRet else 0
      | _ => 0
    ({ st with openStreams := eraseKey st.openStreams sr.randomValue }, ret)

/-- Outcome of the owned-buffer `readData(filename, &bytesRead)` variant:
the size of the `new char[fileRecord->size]` allocation, the byte count
the backend produced, and whether the short-read check threw. -/
structure OwnedReadOutcome where
  allocSize : Option Nat
  bytesRead : Nat
  threw : Bool
deriving DecidableEq, Repr

/-- Model of the owned-buffer `readData` variant: resolve, allocate a
buffer of the record's recorded size, read (`backendBytes` is the byte
count the backend produced), and throw when it differs from the recorded
size. -/
def readDataOwned (st : ManagerState) (filename : String) (backendBytes : Nat) :
    OwnedReadOutcome :=
  match findFileRecord st filename with
  | none => ⟨none, 0, false⟩
  | some rec => ⟨some rec.size, backendBytes, backendBytes ≠ rec.size⟩

/-! ## Operation semantics (source: the public `ResourcesManager` surface) -/

/-- Model of `reset()`: every field the source clears is restored to its
initial value; `openStreams` is not touched by the source. -/
def resetState (st : ManagerState) : ManagerState :=
  { enableTrace := false
    rootFoldersList := []
    filenameToRecordMap := []
    languageId := ""
    relativeFolderToLanguageIdMap := []
    relativeFolderToCategoryMap := []
    enabledCategories := []
    openStreams := st.openStreams
    searchByRelativePaths := false
    searchRootsList := [""] }

/-- Configuration and stream operations of the public interface, with the
oracle inputs of each call attached. -/
inductive Op where
  | reset
  | enableTraceOp (b : Bool)
  | addRootFolder (rootFolder : String) (tree : DirTree)
  | addLanguageFolder (languageId languageFolder : String)
  | setCurrentLanguage (languageId : String)
  | addCategoryFolder (category categoryFolder : String)
  | enableCategory (category : String)
  | disableCategory (category : String)
  | setSearchByRelativePaths (b : Bool)
  | addSearchRoot (root : String)
  | addArchiveOp (archivePath rootFolder : String) (openOk : Bool) (enum : ZipEnum)
  | getStreamOp (filename : String) (rnd : Int) (fopenOk zipOpenOk zipSeekOk zipOpenCurOk : Bool)
  | closeFileOp (handle : Int) (fcloseRet : Int)
deriving DecidableEq, Repr

/-- State transition of each operation.  Operations that throw leave the
manager in the state reached at the throw (partial archive additions are
not rolled back; a failed stream insertion leaves the table unchanged). -/
def applyOp (st : ManagerState) : Op → ManagerState
  | .reset => resetState st
  | .enableTraceOp b => { st with enableTrace := b }
  | .addRootFolder rootFolder tree =>
    let st' := { st with rootFoldersList := st.rootFoldersList ++ [rootFolder] }
    { st' with filenameToRecordMap :=
        mapAppendMany st'.filenameToRecordMap (rootFolderRecords st' rootFolder tree) }
  | .addLanguageFolder languageId languageFolder =>
    { st with relativeFolderToLanguageIdMap :=
        sortedUpdate st.relativeFolderToLanguageIdMap languageFolder languageId }
  | .setCurrentLanguage languageId => { st with languageId := languageId }
  | .addCategoryFolder category categoryFolder =>
    { st with relativeFolderToCategoryMap :=
        sortedUpdate st.relativeFolderToCategoryMap categoryFolder category }
  | .enableCategory category =>
    { st with enabledCategories :=
        if st.enabledCategories.contains category then st.enabledCategories
        else st.enabledCategories ++ [category] }
  | .disableCategory category =>
    { st with enabledCategories := st.enabledCategories.filter (fun c => c ≠ category) }
  | .setSearchByRelativePaths b => { st with searchByRelativePaths := b }
  | .addSearchRoot root =>
    { st with searchRootsList := st.searchRootsList ++ [replaceAllStr root "\\\\" "/"] }
  | .addArchiveOp archivePath rootFolder openOk enum =>
    (addArchive st archivePath rootFolder openOk enum).finalState
  | .getStreamOp filename rnd a b c d => (getStream st filename rnd a b c d).finalState
  | .closeFileOp handle fcloseRet => (closeFile st handle fcloseRet).1

def applyOps (st : ManagerState) (ops : List Op) : ManagerState :=
  ops.foldl applyOp st

/-- States the manager can reach from construction through the public
interface. -/
def Reachable (st : ManagerState) : Prop :=
  ∃ ops : List Op, applyOps initState ops = st

/-! ## Lemmas about the container models -/

theorem charListLt_irrefl : ∀ l : List Char, charListLt l l = false
  | [] => rfl
  | _ :: as => by simp [charListLt, charListLt_irrefl as]

theorem strLt_irrefl (s : String) : strLt s s = false := charListLt_irrefl s.data

theorem recLess_irrefl (r : FileRecord) : recLess r r = false := by
  simp [recLess, strLt_irrefl]

theorem lookupKey_eq_none_iff {κ α : Type} [DecidableEq κ] :
    ∀ (l : List (κ × α)) (k : κ), lookupKey l k = none ↔ k ∉ l.map Prod.fst := by
  intro l k
  induction l with
  | nil => simp [lookupKey]
  | cons p rest ih =>
    obtain ⟨k', v⟩ := p
    by_cases h : k = k' <;> simp [lookupKey, h, ih]

theorem lookupKey_eraseKey {κ α : Type} [DecidableEq κ] (l : List (κ × α)) (k : κ) :
    lookupKey (eraseKey l k) k = none := by
  induction l with
  | nil => simp [eraseKey, lookupKey]
  | cons p rest ih =>
    by_cases h : p.1 = k
    · simpa [eraseKey, h] using ih
    · simpa [eraseKey, lookupKey, h, Ne.symm h] using ih

theorem mem_lookupKey_mapAppendRec_self :
    ∀ (m : List (String × List FileRecord)) (k : String) (r : FileRecord),
      r ∈ (lookupKey (mapAppendRec m k r) k).getD [] := by
  intro m k r
  induction m with
  | nil => simp [mapAppendRec, lookupKey]
  | cons p rest ih =>
    obtain ⟨k', l⟩ := p
    by_cases h : k = k' <;> simp [mapAppendRec, lookupKey, h, ih]

theorem mem_lookupKey_mapAppendRec_mono
    {m : List (String × List FileRecord)} {k : String} {r : FileRecord}
    (k2 : String) (r2 : FileRecord) (h : r ∈ (lookupKey m k).getD []) :
    r ∈ (lookupKey (mapAppendRec m k2 r2) k).getD [] := by
  induction m with
  | nil => simp [lookupKey] at h
  | cons p rest ih =>
    obtain ⟨k', l⟩ := p
    rw [mapAppendRec]
    by_cases hk : k2 = k'
    · rw [if_pos hk]
      by_cases hkk : k = k'
      · rw [lookupKey, if_pos hkk]
        rw [lookupKey, if_pos hkk] at h
        simp only [Option.getD_some] at h ⊢
        exact List.mem_append_left _ h
      · rw [lookupKey, if_neg hkk]
        rw [lookupKey, if_neg hkk] at h
        exact h
    · rw [if_neg hk]
      by_cases hkk : k = k'
      · rw [lookupKey, if_pos hkk]
        rw [lookupKey, if_pos hkk] at h
        exact h
      · rw [lookupKey, if_neg hkk]
        rw [lookupKey, if_neg hkk] at h
        exact ih h

theorem mem_lookupKey_mapAppendMany_mono
    {m : List (String × List FileRecord)} {k : String} {r : FileRecord}
    (pairs : List (String × FileRecord)) (h : r ∈ (lookupKey m k).getD []) :
    r ∈ (lookupKey (mapAppendMany m pairs) k).getD [] := by
  induction pairs generalizing m with
  | nil => simpa [mapAppendMany] using h
  | cons p rest ih =>
    simpa [mapAppendMany, List.foldl_cons] using
      ih (mem_lookupKey_mapAppendRec_mono p.1 p.2 h)

theorem mem_lookupKey_mapAppendMany
    {m : List (String × List FileRecord)} {k : String} {r : FileRecord}
    {pairs : List (String × FileRecord)} (h : (k, r) ∈ pairs) :
    r ∈ (lookupKey (mapAppendMany m pairs) k).getD [] := by
  induction pairs generalizing m with
  | nil => cases h
  | cons p rest ih =>
    rcases List.mem_cons.mp h with h | h
    · cases h
      simpa [mapAppendMany, List.foldl_cons] using
        mem_lookupKey_mapAppendMany_mono rest (mem_lookupKey_mapAppendRec_self m k r)
    · simpa [mapAppendMany, List.foldl_cons] using ih h

theorem mem_setInsert {x y : FileRecord} :
    ∀ {l : List FileRecord}, y ∈ setInsert x l → y = x ∨ y ∈ l := by
  intro l
  induction l with
  | nil =>
    intro h
    simpa [setInsert] using h
  | cons z zs ih =>
    intro h
    cases h1 : recLess x z
    · cases h2 : recLess z x
      · simp only [setInsert, h1, h2, Bool.not_false, Bool.false_eq_true, if_false,
          if_true] at h
        exact Or.inr h
      · simp only [setInsert, h1, h2, Bool.not_true, Bool.false_eq_true, if_false] at h
        rcases List.mem_cons.mp h with h | h
        · exact Or.inr (h ▸ List.mem_cons_self z zs)
        · rcases ih h with h' | h'
          · exact Or.inl h'
          · exact Or.inr (List.mem_cons_of_mem z h')
    · simp only [setInsert, h1, if_true] at h
      rcases List.mem_cons.mp h with h | h
      · exact Or.inl h
      · exact Or.inr h

theorem setInsert_ne_nil (x : FileRecord) : ∀ l : List FileRecord, setInsert x l ≠ []
  | [] => by simp [setInsert]
  | y :: ys => by
    by_cases h1 : recLess x y
    · simp [setInsert, h1]
    · by_cases h2 : recLess y x <;> simp [setInsert, h1, h2]

/-- Accumulator form of the candidate-set construction of `findFileRecord`. -/
def insertAll (acc : List FileRecord) (l : List FileRecord) : List FileRecord :=
  l.foldl (fun a r => setInsert r a) acc

theorem insertAll_ne_nil_of_acc {acc : List FileRecord} (h : acc ≠ []) :
    ∀ l : List FileRecord, insertAll acc l ≠ [] := by
  intro l
  induction l generalizing acc with
  | nil => exact h
  | cons r rest ih => exact ih (setInsert_ne_nil r acc)

theorem insertAll_eq_nil_iff (acc l : List FileRecord) :
    insertAll acc l = [] ↔ acc = [] ∧ l = [] := by
  induction l generalizing acc with
  | nil => simp [insertAll]
  | cons r rest ih =>
    constructor
    · intro h
      exact absurd h (insertAll_ne_nil_of_acc (setInsert_ne_nil r acc) rest)
    · rintro ⟨_, h⟩
      cases h

theorem mem_insertAll {y : FileRecord} :
    ∀ {l acc : List FileRecord}, y ∈ insertAll acc l → y ∈ acc ∨ y ∈ l := by
  intro l
  induction l with
  | nil =>
    intro acc h
    exact Or.inl h
  | cons r rest ih =>
    intro acc h
    rcases ih h with h' | h'
    · rcases mem_setInsert h' with h'' | h''
      · exact Or.inr (h'' ▸ List.mem_cons_self r rest)
      · exact Or.inl h''
    · exact Or.inr (List.mem_cons_of_mem r h')

theorem collectCandidates_eq (st : ManagerState) (records : List FileRecord) :
    collectCandidates st records = insertAll [] (records.filter (admissibleB st)) := by
  have general : ∀ (rs : List FileRecord) (acc : List FileRecord),
      rs.foldl (fun a r => if admissibleB st r then setInsert r a else a) acc =
        insertAll acc (rs.filter (admissibleB st)) := by
    intro rs
    induction rs with
    | nil => intro acc; rfl
    | cons r rest ih =>
      intro acc
      cases h : admissibleB st r <;>
        simp [List.foldl_cons, List.filter_cons, h, ih, insertAll]
  exact general records []

theorem collectFromRoots_eq (st : ManagerState) (q : String) :
    ∀ roots : List String,
      collectFromRoots st q roots = insertAll [] (winningRecords st q roots) := by
  intro roots
  induction roots with
  | nil => simp [collectFromRoots, winningRecords, insertAll]
  | cons root rest ih =>
    rw [collectFromRoots, winningRecords]
    cases hfind : lookupKey st.filenameToRecordMap
        (makeKey st.searchByRelativePaths
          (combine [root, makeKey st.searchByRelativePaths q])) with
    | none => exact ih
    | some records =>
      by_cases hlen : records.length = 0
      · simp only [if_pos hlen]
        exact ih
      · simp only [if_neg hlen]
        have hcc := collectCandidates_eq st records
        by_cases hadm : (records.filter (admissibleB st)).isEmpty
        · have hempty : (collectCandidates st records).isEmpty = true := by
            rw [hcc, List.isEmpty_iff]
            rw [List.isEmpty_iff] at hadm
            exact (insertAll_eq_nil_iff _ _).mpr ⟨rfl, hadm⟩
          simp only [hempty, hadm, if_true]
          exact ih
        · have hne : ¬ (collectCandidates st records).isEmpty = true := by
            rw [hcc, List.isEmpty_iff]
            rw [List.isEmpty_iff] at hadm
            intro hcontra
            exact hadm ((insertAll_eq_nil_iff _ _).mp hcontra).2
          simp only [hne, hadm, if_false]
          exact hcc

theorem findFileRecord_eq (st : ManagerState) (q : String) :
    findFileRecord st q = (insertAll [] (winningRecords st q st.searchRootsList)).head? := by
  rw [findFileRecord, collectFromRoots_eq]

theorem mem_winningRecords {st : ManagerState} {q : String} {r : FileRecord} :
    ∀ {roots : List String}, r ∈ winningRecords st q roots →
      admissibleB st r = true ∧ ∃ root ∈ roots, r ∈ recordsAt st root q := by
  intro roots
  induction roots with
  | nil =>
    intro h
    cases h
  | cons root rest ih =>
    intro h
    cases hfind : lookupKey st.filenameToRecordMap
        (makeKey st.searchByRelativePaths
          (combine [root, makeKey st.searchByRelativePaths q])) with
    | none =>
      simp only [winningRecords, hfind] at h
      obtain ⟨ha, root', hroot', hr⟩ := ih h
      exact ⟨ha, root', List.mem_cons_of_mem root hroot', hr⟩
    | some records =>
      simp only [winningRecords, hfind] at h
      by_cases hlen : records.length = 0
      · rw [if_pos hlen] at h
        obtain ⟨ha, root', hroot', hr⟩ := ih h
        exact ⟨ha, root', List.mem_cons_of_mem root hroot', hr⟩
      · rw [if_neg hlen] at h
        by_cases hadm : (records.filter (admissibleB st)).isEmpty
        · simp only [hadm, if_true] at h
          obtain ⟨ha, root', hroot', hr⟩ := ih h
          exact ⟨ha, root', List.mem_cons_of_mem root hroot', hr⟩
        · simp only [hadm, if_false] at h
          have hmem := List.mem_filter.mp h
          refine ⟨hmem.2, root, List.mem_cons_self root rest, ?_⟩
          rw [recordsAt, hfind]
          exact hmem.1

theorem winningRecords_ne_nil_iff (st : ManagerState) (q : String) :
    ∀ roots : List String,
      winningRecords st q roots ≠ [] ↔
        ∃ root ∈ roots, ∃ r ∈ recordsAt st root q, admissibleB st r = true := by
  intro roots
  induction roots with
  | nil => simp [winningRecords]
  | cons root rest ih =>
    cases hfind : lookupKey st.filenameToRecordMap
        (makeKey st.searchByRelativePaths
          (combine [root, makeKey st.searchByRelativePaths q])) with
    | none =>
      simp only [winningRecords, hfind]
      rw [ih]
      constructor
      · rintro ⟨root', hroot', hr⟩
        exact ⟨root', List.mem_cons_of_mem root hroot', hr⟩
      · rintro ⟨root', hroot', r, hr, ha⟩
        rcases List.mem_cons.mp hroot' with rfl | hroot''
        · rw [recordsAt, hfind] at hr
          cases hr
        · exact ⟨root', hroot'', r, hr, ha⟩
    | some records =>
      simp only [winningRecords, hfind]
      have hrecAt : recordsAt st root q = records := by
        rw [recordsAt, hfind]
        rfl
      by_cases hlen : records.length = 0
      · rw [if_pos hlen, ih]
        have hrecnil : records = [] := List.length_eq_zero.mp hlen
        constructor
        · rintro ⟨root', hroot', hr⟩
          exact ⟨root', List.mem_cons_of_mem root hroot', hr⟩
        · rintro ⟨root', hroot', r, hr, ha⟩
          rcases List.mem_cons.mp hroot' with rfl | hroot''
          · rw [hrecAt, hrecnil] at hr
            cases hr
          · exact ⟨root', hroot'', r, hr, ha⟩
      · rw [if_neg hlen]
        by_cases hadm : (records.filter (admissibleB st)).isEmpty
        · simp only [hadm, if_true]
          rw [ih]
          have hnone : ∀ r ∈ records, admissibleB st r = false := by
            intro r hr
            rw [List.isEmpty_iff] at hadm
            by_contra hcontra
            have : r ∈ records.filter (admissibleB st) :=
              List.mem_filter.mpr ⟨hr, Bool.not_eq_false _ ▸ hcontra⟩
            rw [hadm] at this
            cases this
          constructor
          · rintro ⟨root', hroot', hr⟩
            exact ⟨root', List.mem_cons_of_mem root hroot', hr⟩
          · rintro ⟨root', hroot', r, hr, ha⟩
            rcases List.mem_cons.mp hroot' with rfl | hroot''
            · rw [hrecAt] at hr
              rw [hnone r hr] at ha
              cases ha
            · exact ⟨root', hroot'', r, hr, ha⟩
        · simp only [hadm, if_false]
          rw [List.isEmpty_iff] at hadm
          constructor
          · intro _
            obtain ⟨r, hr⟩ := List.exists_mem_of_ne_nil _ hadm
            have hmem := List.mem_filter.mp hr
            exact ⟨root, List.mem_cons_self root rest, r, hrecAt ▸ hmem.1, hmem.2⟩
          · intro _
            exact hadm

theorem findFileRecord_mem {st : ManagerState} {q : String} {r : FileRecord}
    (h : findFileRecord st q = some r) :
    r ∈ winningRecords st q st.searchRootsList ∧ admissibleB st r = true ∧
      ∃ root ∈ st.searchRootsList, r ∈ recordsAt st root q := by
  rw [findFileRecord_eq] at h
  have hmem : r ∈ insertAll [] (winningRecords st q st.searchRootsList) :=
    List.mem_of_mem_head? h
  rcases mem_insertAll hmem with h' | h'
  · cases h'
  · obtain ⟨ha, hroot⟩ := mem_winningRecords h'
    exact ⟨h', ha, hroot⟩

theorem findFileRecord_isSome_iff (st : ManagerState) (q : String) :
    (findFileRecord st q).isSome = true ↔
      ∃ root ∈ st.searchRootsList, ∃ r ∈ recordsAt st root q, admissibleB st r = true := by
  rw [findFileRecord_eq, ← winningRecords_ne_nil_iff]
  rw [Option.isSome_iff_exists]
  constructor
  · rintro ⟨r, hr⟩ hcontra
    rw [hcontra] at hr
    simp [insertAll] at hr
  · intro hne
    have : insertAll [] (winningRecords st q st.searchRootsList) ≠ [] := by
      intro hcontra
      exact hne ((insertAll_eq_nil_iff _ _).mp hcontra).2
    obtain ⟨r, hr⟩ := List.exists_mem_of_ne_nil _ this
    cases hl : (insertAll [] (winningRecords st q st.searchRootsList)).head? with
    | none =>
      rw [List.head?_eq_none_iff] at hl
      rw [hl] at hr
      cases hr
    | some r' => exact ⟨r', rfl⟩

/-! ## The tie-break comparator and dominating candidates -/

/-- Record `d` dominates record `o` under the candidate-set comparator:
`d` compares before `o` and `o` does not compare before `d`. -/
def Dominates (d o : FileRecord) : Prop :=
  recLess d o = true ∧ recLess o d = false

theorem setInsert_dominant {d x : FileRecord} {acc : List FileRecord}
    (hx : x = d ∨ Dominates d x)
    (hacc : ∀ o ∈ acc, o = d ∨ Dominates d o)
    (hhead : d ∈ acc → acc.head? = some d) :
    (∀ o ∈ setInsert x acc, o = d ∨ Dominates d o) ∧
    (d ∈ setInsert x acc → (setInsert x acc).head? = some d) ∧
    ((x = d ∨ d ∈ acc) → d ∈ setInsert x acc) := by
  have hxd : x = d → d = x := fun h => h.symm
  cases acc with
  | nil =>
    refine ⟨?_, ?_, ?_⟩
    · intro o ho
      have h : o = x := by simpa [setInsert] using ho
      exact hx.imp (fun he => h.trans he) (fun hdo => h ▸ hdo)
    · intro hd
      rcases mem_setInsert hd with h | h
      · simp [setInsert, h]
      · cases h
    · intro hmem
      rcases hmem with hmem | hmem
      · simpa [setInsert] using hmem.symm
      · cases hmem
  | cons y ys =>
    cases h1 : recLess x y with
    | true =>
      have hres : setInsert x (y :: ys) = x :: y :: ys := by simp [setInsert, h1]
      have hynotd : d ∈ y :: ys → y = d := by
        intro hd
        have := hhead hd
        simpa using this
      refine ⟨?_, ?_, ?_⟩
      · intro o ho
        rw [hres] at ho
        rcases List.mem_cons.mp ho with h | h
        · exact hx.imp (fun he => h.trans he) (fun hdo => h ▸ hdo)
        · exact hacc o h
      · intro hd
        rw [hres] at hd ⊢
        rcases List.mem_cons.mp hd with h | h
        · simp [h.symm]
        · exfalso
          have hy := hynotd h
          subst hy
          rcases hx with rfl | hdom
          · rw [recLess_irrefl] at h1
            cases h1
          · rw [hdom.2] at h1
            cases h1
      · intro hmem
        rw [hres]
        rcases hmem with rfl | hmem
        · exact List.mem_cons_self x _
        · exact List.mem_cons_of_mem x hmem
    | false =>
      cases h2 : recLess y x with
      | false =>
        have hres : setInsert x (y :: ys) = y :: ys := by simp [setInsert, h1, h2]
        refine ⟨?_, ?_, ?_⟩
        · intro o ho
          rw [hres] at ho
          exact hacc o ho
        · intro hd
          rw [hres] at hd ⊢
          exact hhead hd
        · intro hmem
          rw [hres]
          rcases hmem with rfl | hmem
          · rcases hacc y (List.mem_cons_self y ys) with rfl | hdom
            · exact List.mem_cons_self y ys
            · rw [hdom.1] at h1
              cases h1
          · exact hmem
      | true =>
        have hres : setInsert x (y :: ys) = y :: setInsert x ys := by
          simp [setInsert, h1, h2]
        have hxnotd : x ≠ d ∨ y = d := by
          rcases hacc y (List.mem_cons_self y ys) with hy | hdom
          · exact Or.inr hy
          · left
            intro hxd'
            subst hxd'
            rw [hdom.1] at h1
            cases h1
        refine ⟨?_, ?_, ?_⟩
        · intro o ho
          rw [hres] at ho
          rcases List.mem_cons.mp ho with h | h
          · exact hacc y (List.mem_cons_self y ys) |>.imp
              (fun he => h.trans he) (fun hdo => h ▸ hdo)
          · rcases mem_setInsert h with h' | h'
            · exact hx.imp (fun he => h'.trans he) (fun hdo => h' ▸ hdo)
            · exact hacc o (List.mem_cons_of_mem y h')
        · intro hd
          rw [hres] at hd ⊢
          rcases List.mem_cons.mp hd with h | h
          · simp [h.symm]
          · rcases mem_setInsert h with h' | h'
            · exfalso
              rcases hxnotd with hxd' | hyd
              · exact hxd' h'.symm
              · subst hyd
                rcases hx with rfl | hdom
                · rw [recLess_irrefl] at h2
                  cases h2
                · subst h'
                  rw [hdom.1] at h1
                  cases h1
            · have hy := hhead (List.mem_cons_of_mem y h')
              simp at hy
              simp [hy]
        · intro hmem
          rw [hres]
          rcases hmem with rfl | hmem
          · rcases hxnotd with hxd' | hyd
            · cases hxd' rfl
            · exact hyd ▸ List.mem_cons_self y _
          · rcases List.mem_cons.mp hmem with h | h
            · exact h ▸ List.mem_cons_self y _
            · have hy := hhead hmem
              simp at hy
              exact hy ▸ List.mem_cons_self y _

theorem insertAll_dominant {d : FileRecord} :
    ∀ {l acc : List FileRecord},
      (∀ o ∈ l, o = d ∨ Dominates d o) →
      (∀ o ∈ acc, o = d ∨ Dominates d o) →
      (d ∈ acc → acc.head? = some d) →
      (d ∈ l ∨ d ∈ acc) →
      (insertAll acc l).head? = some d := by
  intro l
  induction l with
  | nil =>
    intro acc _ hacc hhead hmem
    rcases hmem with h | h
    · cases h
    · exact hhead h
  | cons x rest ih =>
    intro acc hl hacc hhead hmem
    have hx : x = d ∨ Dominates d x := hl x (List.mem_cons_self x rest)
    obtain ⟨p1, p2, p3⟩ := setInsert_dominant hx hacc hhead
    have hrest : ∀ o ∈ rest, o = d ∨ Dominates d o :=
      fun o ho => hl o (List.mem_cons_of_mem x ho)
    have hmem' : d ∈ rest ∨ d ∈ setInsert x acc := by
      rcases hmem with h | h
      · rcases List.mem_cons.mp h with h' | h'
        · exact Or.inr (p3 (Or.inl h'.symm))
        · exact Or.inl h'
      · exact Or.inr (p3 (Or.inr h))
    exact ih hrest p1 p2 hmem'

/-! ## Claim C1 -/

/-- Reachable state with two admissible candidates under key `x.png`: the
record from language folder `fr` (`languageId = "fr"`, empty category)
and the record from category folder `hd` (`category = "HD"`, empty
languageId), in that discovery order. -/
def c1State : ManagerState :=
  applyOps initState
    [ .addLanguageFolder "fr" "fr"
    , .addCategoryFolder "HD" "hd"
    , .enableCategory "HD"
    , .addRootFolder "root"
        (.consDirOk "fr" (.consFile "x.png" (some 1) .nilEntries)
          (.consDirOk "hd" (.consFile "x.png" (some 2) .nilEntries) .nilEntries)) ]

/-- C1, counterexample.  In `c1State` the key `x.png` has two admissible
candidates; one admissible candidate has the non-empty languageId `fr`,
yet `findFileRecord` returns the record with the empty languageId (the
category-specific record wins because the comparator tests the category
disjunct first), so a record with a non-empty languageId is not preferred
over one with an empty languageId as the claim states. -/
theorem c1_counterexample :
    2 ≤ (winningRecords c1State "x.png" c1State.searchRootsList).length ∧
    (winningRecords c1State "x.png" c1State.searchRootsList).any
      (fun r => r.languageId ≠ "") = true ∧
    (findFileRecord c1State "x.png").map FileRecord.languageId = some "" := by
  decide

/-- C1, amended.  The specificity rule is guaranteed only when it is not
self-contradictory on the candidate set: when one admissible candidate of
the winning key dominates every other admissible candidate — each other
candidate is below it or equal to it in both the category and the
languageId string orderings, and strictly below in at least one —
`findFileRecord` returns that candidate.  In particular, among candidates
with equal languageId a record with a non-empty category is preferred
over one with an empty category, and among candidates with equal category
a record with a non-empty languageId is preferred over one with an empty
languageId.  When the two orderings conflict (one candidate more specific
by category, another by languageId), the comparator passed to `std::set`
is not a strict weak order and the returned record depends on discovery
order, as `c1_counterexample` shows. -/
theorem c1_amended_dominant_candidate_wins
    (st : ManagerState) (q : String) (d : FileRecord)
    (hd : d ∈ winningRecords st q st.searchRootsList)
    (hdom : ∀ o ∈ winningRecords st q st.searchRootsList, o = d ∨
      ((strLt o.category d.category = true ∨ strLt o.languageId d.languageId = true) ∧
        strLt d.category o.category = false ∧ strLt d.languageId o.languageId = false))
    (_ : 2 ≤ (winningRecords st q st.searchRootsList).length) :
    findFileRecord st q = some d := by
  rw [findFileRecord_eq]
  refine insertAll_dominant ?_ ?_ ?_ (Or.inl hd)
  · intro o ho
    refine (hdom o ho).imp id ?_
    rintro ⟨h1, h2, h3⟩
    constructor
    · rw [recLess]
      rcases h1 with h | h <;> simp [h]
    · rw [recLess, h2, h3]
      rfl
  · intro o ho
    cases ho
  · intro hmem
    cases hmem

/-- State with a dominating candidate: the generic `x.png` record and the
`HD`-category `hd/x.png` record, where the category record dominates. -/
def catPairState : ManagerState :=
  applyOps initState
    [ .addCategoryFolder "HD" "hd"
    , .enableCategory "HD"
    , .addRootFolder "root"
        (.consFile "x.png" (some 1)
          (.consDirOk "hd" (.consFile "x.png" (some 2) .nilEntries) .nilEntries)) ]

def catPairRecordHD : FileRecord :=
  { filename := "x.png"
    fileType := .RegularFile
    size := 2
    languageId := ""
    category := "HD"
    filePath := "root/hd/x.png"
    relativePath := "hd/x.png"
    zipFilePath := ""
    zipFilePos := 0 }

/-- Witness for `c1_amended_dominant_candidate_wins` at a concrete state
with two admissible candidates dominated by the `HD`-tagged record. -/
theorem c1_amended_witness : findFileRecord catPairState "x.png" = some catPairRecordHD :=
  c1_amended_dominant_candidate_wins catPairState "x.png" catPairRecordHD
    (by decide) (by decide) (by decide)

/-! ## Claim C2 -/

theorem admissibleB_iff (st : ManagerState) (r : FileRecord) :
    admissibleB st r = true ↔
      (st.languageId = "" ∨ r.languageId = st.languageId) ∧
      (r.category = "" ∨ r.category ∈ st.enabledCategories) := by
  rw [admissibleB]
  simp [List.contains_iff_exists_mem_beq, beq_iff_eq]

/-- The generic record of `catPairState` (empty language and category). -/
def catPairRecordGen : FileRecord :=
  { filename := "x.png"
    fileType := .RegularFile
    size := 1
    languageId := ""
    category := ""
    filePath := "root/x.png"
    relativePath := "x.png"
    zipFilePath := ""
    zipFilePos := 0 }

/-- C2.  A record returned by `findFileRecord` always passes the
admissibility filter and is stored under a key derived from a configured
search root; some record is returned exactly when some stored record
under a tried key passes the filter; after `disableCategory(c)` (for a
non-empty tag `c`, an empty tag meaning untagged) no returned record
carries category `c`; and a record with an empty category stored under a
tried key whose language passes the filter keeps the key resolvable. -/
theorem c2_admissibility_filter :
    (∀ (st : ManagerState) (q : String) (r : FileRecord),
      findFileRecord st q = some r →
        ((st.languageId = "" ∨ r.languageId = st.languageId) ∧
          (r.category = "" ∨ r.category ∈ st.enabledCategories)) ∧
        ∃ root ∈ st.searchRootsList, r ∈ recordsAt st root q) ∧
    (∀ (st : ManagerState) (q : String),
      (findFileRecord st q).isSome = true ↔
        ∃ root ∈ st.searchRootsList, ∃ r ∈ recordsAt st root q,
          (st.languageId = "" ∨ r.languageId = st.languageId) ∧
          (r.category = "" ∨ r.category ∈ st.enabledCategories)) ∧
    (∀ (st : ManagerState) (c q : String) (r : FileRecord), c ≠ "" →
      findFileRecord (applyOp st (.disableCategory c)) q = some r → r.category ≠ c) ∧
    (∀ (st : ManagerState) (c q root : String) (r : FileRecord),
      root ∈ st.searchRootsList →
      r ∈ recordsAt (applyOp st (.disableCategory c)) root q →
      r.category = "" →
      (st.languageId = "" ∨ r.languageId = st.languageId) →
      (findFileRecord (applyOp st (.disableCategory c)) q).isSome = true) := by
  refine ⟨?_, ?_, ?_, ?_⟩
  · intro st q r h
    obtain ⟨_, ha, hroot⟩ := findFileRecord_mem h
    exact ⟨(admissibleB_iff st r).mp ha, hroot⟩
  · intro st q
    rw [findFileRecord_isSome_iff]
    constructor
    · rintro ⟨root, hroot, r, hr, ha⟩
      exact ⟨root, hroot, r, hr, (admissibleB_iff st r).mp ha⟩
    · rintro ⟨root, hroot, r, hr, ha⟩
      exact ⟨root, hroot, r, hr, (admissibleB_iff st r).mpr ha⟩
  · intro st c q r hc h
    obtain ⟨_, ha, _⟩ := findFileRecord_mem h
    have ha' := (admissibleB_iff _ r).mp ha
    intro hcat
    rcases ha'.2 with h' | h'
    · exact hc (hcat ▸ h')
    · have h'' := List.mem_filter.mp h'
      rw [hcat] at h''
      simp at h''
  · intro st c q root r hroot hr hcat hlang
    rw [findFileRecord_isSome_iff]
    refine ⟨root, hroot, r, hr, (admissibleB_iff _ r).mpr ⟨hlang, Or.inl hcat⟩⟩

/-- Witness for `c2_admissibility_filter`: in `catPairState` the returned
`HD` record passes the filter; after `disableCategory("HD")` the returned
record does not carry category `HD`, and the key stays resolvable through
the generic record. -/
theorem c2_admissibility_filter_witness :
    (((catPairState.languageId = "" ∨
        catPairRecordHD.languageId = catPairState.languageId) ∧
      (catPairRecordHD.category = "" ∨
        catPairRecordHD.category ∈ catPairState.enabledCategories)) ∧
      ∃ root ∈ catPairState.searchRootsList,
        catPairRecordHD ∈ recordsAt catPairState root "x.png") ∧
    catPairRecordGen.category ≠ "HD" ∧
    (findFileRecord (applyOp catPairState (.disableCategory "HD")) "x.png").isSome = true :=
  ⟨c2_admissibility_filter.1 catPairState "x.png" catPairRecordHD (by decide),
   c2_admissibility_filter.2.2.1 catPairState "HD" "x.png" catPairRecordGen
     (by decide) (by decide),
   c2_admissibility_filter.2.2.2 catPairState "HD" "x.png" "" catPairRecordGen
     (by decide) (by decide) (by decide) (by decide)⟩

/-! ## Stream-table invariants -/

/-- Handles currently present in the open-stream table. -/
def streamKeys (st : ManagerState) : List Int := st.openStreams.map Prod.fst

/-- Well-formedness of an open-stream table: pairwise distinct handles,
and each entry keyed by its record's `randomValue` (the key used by the
insertion in `getStream` and by the erasure in `closeFile`). -/
def streamWF (l : List (Int × StreamRecord)) : Prop :=
  (l.map Prod.fst).Nodup ∧ ∀ p ∈ l, p.2.randomValue = p.1

theorem lookupKey_some_mem {κ α : Type} [DecidableEq κ] :
    ∀ {l : List (κ × α)} {k : κ} {v : α}, lookupKey l k = some v → (k, v) ∈ l := by
  intro l
  induction l with
  | nil =>
    intro k v h
    cases h
  | cons p rest ih =>
    intro k v h
    obtain ⟨k1, v1⟩ := p
    rw [lookupKey] at h
    by_cases hk : k = k1
    · rw [if_pos hk] at h
      cases h
      subst hk
      exact List.mem_cons_self _ _
    · rw [if_neg hk] at h
      exact List.mem_cons_of_mem _ (ih h)

theorem archiveEntryState_openStreams (st : ManagerState) (p rf : String)
    (e : ArchiveEntry) : (archiveEntryState st p rf e).openStreams = st.openStreams := by
  rw [archiveEntryState]
  dsimp only
  split <;> rfl

theorem stepArchiveEntry_openStreams {st st' : ManagerState} {p rf : String}
    {e : ArchiveEntry} {posOk : Bool}
    (h : stepArchiveEntry st p rf e posOk = some st') :
    st'.openStreams = st.openStreams := by
  rw [stepArchiveEntry] at h
  by_cases h1 : !posOk
  · rw [if_pos h1] at h
    cases h
  · rw [if_neg h1] at h
    by_cases h2 : (lookupKey st.filenameToRecordMap e.name).isSome
    · rw [if_pos h2] at h
      cases h
    · rw [if_neg h2] at h
      cases h
      exact archiveEntryState_openStreams st p rf e

theorem addArchiveLoop_openStreams (p rf : String) :
    ∀ (enum : ZipEnum) (st : ManagerState) (e : ArchiveEntry) (posOk : Bool),
      (addArchiveLoop p rf st e posOk enum).finalState.openStreams = st.openStreams := by
  intro enum
  induction enum with
  | fail =>
    intro st e posOk
    rw [addArchiveLoop]
    cases hstep : stepArchiveEntry st p rf e posOk with
    | none => rfl
    | some st' => exact stepArchiveEntry_openStreams hstep
  | done =>
    intro st e posOk
    rw [addArchiveLoop]
    cases hstep : stepArchiveEntry st p rf e posOk with
    | none => rfl
    | some st' => exact stepArchiveEntry_openStreams hstep
  | entry e' posOk' rest ih =>
    intro st e posOk
    rw [addArchiveLoop]
    cases hstep : stepArchiveEntry st p rf e posOk with
    | none => rfl
    | some st' => exact (ih st' e' posOk').trans (stepArchiveEntry_openStreams hstep)

theorem addArchive_openStreams (st : ManagerState) (p rf : String) (openOk : Bool)
    (enum : ZipEnum) : (addArchive st p rf openOk enum).finalState.openStreams = st.openStreams := by
  unfold addArchive
  by_cases h1 : !openOk
  · rw [if_pos h1]
  · rw [if_neg h1]
    cases enum with
    | fail => rfl
    | done => rfl
    | entry e posOk rest => exact addArchiveLoop_openStreams p rf rest st e posOk

theorem getStream_none {st : ManagerState} {q : String} (rnd : Int) (a b c d : Bool)
    (h : findFileRecord st q = none) :
    getStream st q rnd a b c d = ⟨st, false, none⟩ := by
  unfold getStream
  rw [h]

theorem getStream_regular {st : ManagerState} {q : String} {r : FileRecord}
    (rnd : Int) (a b c d : Bool) (h : findFileRecord st q = some r)
    (hft : r.fileType = .RegularFile) :
    getStream st q rnd a b c d =
      if !a then ⟨st, false, none⟩
      else insertOutcome st rnd
        { fileRecord := r, randomValue := rnd, fileOpen := true, zipOpen := false } := by
  unfold getStream
  rw [h]
  dsimp only
  rw [hft]

theorem getStream_zip {st : ManagerState} {q : String} {r : FileRecord}
    (rnd : Int) (a b c d : Bool) (h : findFileRecord st q = some r)
    (hft : r.fileType = .CompressedFile ∨ r.fileType = .StoredFile) :
    getStream st q rnd a b c d =
      if !b then ⟨st, true, none⟩
      else if !c then ⟨st, true, none⟩
      else if !d then ⟨st, true, none⟩
      else insertOutcome st rnd
        { fileRecord := r, randomValue := rnd, fileOpen := false, zipOpen := true } := by
  unfold getStream
  rw [h]
  dsimp only
  rcases hft with hft | hft <;> rw [hft]

theorem streamWF_insertOutcome {st : ManagerState} (hwf : streamWF st.openStreams)
    (rnd : Int) (sr : StreamRecord) (hsr : sr.randomValue = rnd) :
    streamWF (insertOutcome st rnd sr).finalState.openStreams := by
  rw [insertOutcome]
  by_cases hlk : (lookupKey st.openStreams rnd).isSome
  · rw [if_pos hlk]
    exact hwf
  · rw [if_neg hlk]
    have hnone := Option.not_isSome_iff_eq_none.mp hlk
    have hnotmem : rnd ∉ st.openStreams.map Prod.fst :=
      (lookupKey_eq_none_iff st.openStreams rnd).mp hnone
    constructor
    · rw [List.map_append]
      refine List.Nodup.append hwf.1 (List.nodup_singleton rnd) ?_
      intro a ha hb
      rcases List.mem_singleton.mp hb with rfl
      exact hnotmem ha
    · intro p hp
      rcases List.mem_append.mp hp with hp | hp
      · exact hwf.2 p hp
      · rcases List.mem_singleton.mp hp with rfl
        exact hsr

theorem insertOutcome_handle {st : ManagerState} {rnd : Int} {sr : StreamRecord} {h : Int}
    (hh : (insertOutcome st rnd sr).handle = some h) :
    h ∉ streamKeys st ∧
    streamKeys (insertOutcome st rnd sr).finalState = streamKeys st ++ [h] ∧
    (insertOutcome st rnd sr).threw = false := by
  rw [insertOutcome] at hh ⊢
  by_cases hlk : (lookupKey st.openStreams rnd).isSome
  · rw [if_pos hlk] at hh
    cases hh
  · rw [if_neg hlk] at hh ⊢
    cases hh
    have hnone := Option.not_isSome_iff_eq_none.mp hlk
    refine ⟨(lookupKey_eq_none_iff st.openStreams rnd).mp hnone, ?_, rfl⟩
    show (st.openStreams ++ [(rnd, sr)]).map Prod.fst = _
    rw [List.map_append]
    rfl

theorem insertOutcome_collision {st : ManagerState} {rnd : Int} (sr : StreamRecord)
    (hlk : (lookupKey st.openStreams rnd).isSome = true) :
    insertOutcome st rnd sr = ⟨st, true, none⟩ := by
  rw [insertOutcome, if_pos hlk]

theorem streamWF_getStream {st : ManagerState} (hwf : streamWF st.openStreams)
    (q : String) (rnd : Int) (a b c d : Bool) :
    streamWF (getStream st q rnd a b c d).finalState.openStreams := by
  cases hfind : findFileRecord st q with
  | none =>
    rw [getStream_none rnd a b c d hfind]
    exact hwf
  | some r =>
    cases hft : r.fileType with
    | RegularFile =>
      rw [getStream_regular rnd a b c d hfind hft]
      by_cases ha : !a
      · rw [if_pos ha]
        exact hwf
      · rw [if_neg ha]
        exact streamWF_insertOutcome hwf rnd _ rfl
    | CompressedFile =>
      rw [getStream_zip rnd a b c d hfind (Or.inl hft)]
      by_cases hb : !b
      · rw [if_pos hb]
        exact hwf
      · rw [if_neg hb]
        by_cases hc : !c
        · rw [if_pos hc]
          exact hwf
        · rw [if_neg hc]
          by_cases hd : !d
          · rw [if_pos hd]
            exact hwf
          · rw [if_neg hd]
            exact streamWF_insertOutcome hwf rnd _ rfl
    | StoredFile =>
      rw [getStream_zip rnd a b c d hfind (Or.inr hft)]
      by_cases hb : !b
      · rw [if_pos hb]
        exact hwf
      · rw [if_neg hb]
        by_cases hc : !c
        · rw [if_pos hc]
          exact hwf
        · rw [if_neg hc]
          by_cases hd : !d
          · rw [if_pos hd]
            exact hwf
          · rw [if_neg hd]
            exact streamWF_insertOutcome hwf rnd _ rfl

theorem streamWF_applyOp {st : ManagerState} (hwf : streamWF st.openStreams)
    (op : Op) : streamWF (applyOp st op).openStreams := by
  cases op with
  | reset => exact hwf
  | enableTraceOp b => exact hwf
  | addRootFolder rootFolder tree => exact hwf
  | addLanguageFolder a b => exact hwf
  | setCurrentLanguage a => exact hwf
  | addCategoryFolder a b => exact hwf
  | enableCategory a =>
    show streamWF ({ st with enabledCategories := _ } : ManagerState).openStreams
    exact hwf
  | disableCategory a => exact hwf
  | setSearchByRelativePaths b => exact hwf
  | addSearchRoot root => exact hwf
  | addArchiveOp p rf openOk enum =>
    show streamWF (addArchive st p rf openOk enum).finalState.openStreams
    rw [addArchive_openStreams]
    exact hwf
  | getStreamOp q rnd a b c d => exact streamWF_getStream hwf q rnd a b c d
  | closeFileOp handle fcloseRet =>
    show streamWF (closeFile st handle fcloseRet).1.openStreams
    rw [closeFile]
    cases hlk : lookupKey st.openStreams handle with
    | none => exact hwf
    | some sr =>
      constructor
      · exact List.Nodup.sublist (List.Sublist.map Prod.fst (List.filter_sublist _)) hwf.1
      · intro p hp
        exact hwf.2 p (List.mem_of_mem_filter hp)

theorem reachable_streamWF {st : ManagerState} (h : Reachable st) :
    streamWF st.openStreams := by
  obtain ⟨ops, rfl⟩ := h
  have general : ∀ (ops : List Op) (s : ManagerState), streamWF s.openStreams →
      streamWF (applyOps s ops).openStreams := by
    intro ops
    induction ops with
    | nil =>
      intro s hs
      exact hs
    | cons op rest ih =>
      intro s hs
      exact ih (applyOp s op) (streamWF_applyOp hs op)
  exact general ops initState ⟨List.nodup_nil, by intro p hp; cases hp⟩

/-! ## Claim C7 -/

/-- Success of the backend-open step of `getStream` for a record, as a
function of the oracle flags. -/
def backendOpens (r : FileRecord) (fopenOk zipOpenOk zipSeekOk zipOpenCurOk : Bool) : Bool :=
  if r.fileType = .RegularFile then fopenOk else zipOpenOk && zipSeekOk && zipOpenCurOk

/-- C7.  At every reachable state the open-stream table has pairwise
distinct handles; every successful `getStream` returns a handle that was
not in the table, appending exactly that handle; and when the generated
handle collides with a present one (after successful resolution and
backend open), `getStream` throws and leaves the table unchanged rather
than overwriting. -/
theorem c7_handle_uniqueness :
    (∀ st : ManagerState, Reachable st → (streamKeys st).Nodup) ∧
    (∀ (st : ManagerState) (q : String) (rnd : Int) (a b c d : Bool) (h : Int),
      (getStream st q rnd a b c d).handle = some h →
        h ∉ streamKeys st ∧
        streamKeys (getStream st q rnd a b c d).finalState = streamKeys st ++ [h] ∧
        (getStream st q rnd a b c d).threw = false) ∧
    (∀ (st : ManagerState) (q : String) (rnd : Int) (a b c d : Bool) (r : FileRecord),
      findFileRecord st q = some r →
      backendOpens r a b c d = true →
      rnd ∈ streamKeys st →
        (getStream st q rnd a b c d).threw = true ∧
        (getStream st q rnd a b c d).finalState = st) := by
  refine ⟨?_, ?_, ?_⟩
  · intro st h
    exact (reachable_streamWF h).1
  · intro st q rnd a b c d h hh
    cases hfind : findFileRecord st q with
    | none =>
      rw [getStream_none rnd a b c d hfind] at hh
      cases hh
    | some r =>
      cases hft : r.fileType with
      | RegularFile =>
        rw [getStream_regular rnd a b c d hfind hft] at hh ⊢
        by_cases ha : !a
        · rw [if_pos ha] at hh
          cases hh
        · rw [if_neg ha] at hh ⊢
          exact insertOutcome_handle hh
      | CompressedFile =>
        rw [getStream_zip rnd a b c d hfind (Or.inl hft)] at hh ⊢
        by_cases hb : !b
        · rw [if_pos hb] at hh
          cases hh
        · rw [if_neg hb] at hh ⊢
          by_cases hc : !c
          · rw [if_pos hc] at hh
            cases hh
          · rw [if_neg hc] at hh ⊢
            by_cases hd : !d
            · rw [if_pos hd] at hh
              cases hh
            · rw [if_neg hd] at hh ⊢
              exact insertOutcome_handle hh
      | StoredFile =>
        rw [getStream_zip rnd a b c d hfind (Or.inr hft)] at hh ⊢
        by_cases hb : !b
        · rw [if_pos hb] at hh
          cases hh
        · rw [if_neg hb] at hh ⊢
          by_cases hc : !c
          · rw [if_pos hc] at hh
            cases hh
          · rw [if_neg hc] at hh ⊢
            by_cases hd : !d
            · rw [if_pos hd] at hh
              cases hh
            · rw [if_neg hd] at hh ⊢
              exact insertOutcome_handle hh
  · intro st q rnd a b c d r hfind hopen hmem
    have hlk : (lookupKey st.openStreams rnd).isSome = true := by
      cases hlkc : lookupKey st.openStreams rnd with
      | none => exact absurd hmem ((lookupKey_eq_none_iff st.openStreams rnd).mp hlkc)
      | some sr => rfl
    cases hft : r.fileType with
    | RegularFile =>
      have ha : a = true := by
        rw [backendOpens, if_pos hft] at hopen
        exact hopen
      subst ha
      have hgs : getStream st q rnd true b c d = insertOutcome st rnd
          { fileRecord := r, randomValue := rnd, fileOpen := true, zipOpen := false } := by
        rw [getStream_regular rnd true b c d hfind hft]
        rfl
      rw [hgs, insertOutcome_collision _ hlk]
      exact ⟨rfl, rfl⟩
    | CompressedFile =>
      rw [backendOpens, if_neg (by rw [hft]; intro hcontra; cases hcontra)] at hopen
      obtain ⟨hbc, hd⟩ := (Bool.and_eq_true _ _).mp hopen
      obtain ⟨hb, hc⟩ := (Bool.and_eq_true _ _).mp hbc
      subst hb
      subst hc
      subst hd
      have hgs : getStream st q rnd a true true true = insertOutcome st rnd
          { fileRecord := r, randomValue := rnd, fileOpen := false, zipOpen := true } := by
        rw [getStream_zip rnd a true true true hfind (Or.inl hft)]
        rfl
      rw [hgs, insertOutcome_collision _ hlk]
      exact ⟨rfl, rfl⟩
    | StoredFile =>
      rw [backendOpens, if_neg (by rw [hft]; intro hcontra; cases hcontra)] at hopen
      obtain ⟨hbc, hd⟩ := (Bool.and_eq_true _ _).mp hopen
      obtain ⟨hb, hc⟩ := (Bool.and_eq_true _ _).mp hbc
      subst hb
      subst hc
      subst hd
      have hgs : getStream st q rnd a true true true = insertOutcome st rnd
          { fileRecord := r, randomValue := rnd, fileOpen := false, zipOpen := true } := by
        rw [getStream_zip rnd a true true true hfind (Or.inr hft)]
        rfl
      rw [hgs, insertOutcome_collision _ hlk]
      exact ⟨rfl, rfl⟩

/-- Reachable state with one open stream on handle 7. -/
def streamState : ManagerState :=
  applyOps initState
    [ .addRootFolder "root" (.consFile "a.png" (some 5) .nilEntries)
    , .getStreamOp "a.png" 7 true true true true ]

def streamStateRecord : FileRecord :=
  { filename := "a.png"
    fileType := .RegularFile
    size := 5
    languageId := ""
    category := ""
    filePath := "root/a.png"
    relativePath := "a.png"
    zipFilePath := ""
    zipFilePos := 0 }

/-- Witness for `c7_handle_uniqueness`: a fresh handle is appended on a
successful open, and re-generating handle 7 while it is open throws and
leaves the table unchanged. -/
theorem c7_handle_uniqueness_witness :
    (streamKeys streamState).Nodup ∧
    (9 ∉ streamKeys streamState ∧
      streamKeys (getStream streamState "a.png" 9 true true true true).finalState =
        streamKeys streamState ++ [9] ∧
      (getStream streamState "a.png" 9 true true true true).threw = false) ∧
    ((getStream streamState "a.png" 7 true true true true).threw = true ∧
      (getStream streamState "a.png" 7 true true true true).finalState = streamState) :=
  ⟨c7_handle_uniqueness.1 streamState ⟨_, rfl⟩,
   c7_handle_uniqueness.2.1 streamState "a.png" 9 true true true true 9 (by decide),
   c7_handle_uniqueness.2.2 streamState "a.png" 7 true true true true streamStateRecord
     (by decide) (by decide) (by decide)⟩

/-! ## Claim C8 -/

/-- C8, counterexample.  `streamState` is reachable and has a non-empty
open-stream table; after `reset()` the open-stream table is unchanged and
in particular not restored to its initial (empty) value, so not all
manager state is cleared. -/
theorem c8_counterexample :
    Reachable streamState ∧
    streamState.openStreams ≠ [] ∧
    (applyOp streamState .reset).openStreams = streamState.openStreams ∧
    (applyOp streamState .reset).openStreams ≠ [] :=
  ⟨⟨_, rfl⟩, by decide, rfl, by decide⟩

/-- C8, amended.  `reset()` restores the record store, the overlay
tables, the current language, the enabled categories, the root-folder
list, the trace flag and the search configuration (including
`searchRootsList = [""]`) to their initial values, but leaves the
open-stream table untouched. -/
theorem c8_amended_reset_leaves_open_streams (st : ManagerState) :
    (applyOp st .reset).filenameToRecordMap = [] ∧
    (applyOp st .reset).rootFoldersList = [] ∧
    (applyOp st .reset).languageId = "" ∧
    (applyOp st .reset).relativeFolderToLanguageIdMap = [] ∧
    (applyOp st .reset).relativeFolderToCategoryMap = [] ∧
    (applyOp st .reset).enabledCategories = [] ∧
    (applyOp st .reset).enableTrace = false ∧
    (applyOp st .reset).searchByRelativePaths = false ∧
    (applyOp st .reset).searchRootsList = [""] ∧
    (applyOp st .reset).openStreams = st.openStreams :=
  ⟨rfl, rfl, rfl, rfl, rfl, rfl, rfl, rfl, rfl, rfl⟩

/-! ## Claim C9 -/

/-- C9.  Reading from a handle absent from the open-stream table returns
0 without an error; closing an absent handle is a no-op returning 0; and
after `closeFile(handle)` on a reachable state a further read on the same
handle returns 0 (the handle is erased, so the lookup misses). -/
theorem c9_absent_handle_benign :
    (∀ (st : ManagerState) (h ret : Int), h ∉ streamKeys st → readDataH st h ret = 0) ∧
    (∀ (st : ManagerState) (h fc : Int), h ∉ streamKeys st → closeFile st h fc = (st, 0)) ∧
    (∀ st : ManagerState, Reachable st → ∀ h fc ret : Int,
      readDataH (closeFile st h fc).1 h ret = 0) := by
  refine ⟨?_, ?_, ?_⟩
  · intro st h ret hmem
    rw [readDataH, (lookupKey_eq_none_iff st.openStreams h).mpr hmem]
  · intro st h fc hmem
    rw [closeFile, (lookupKey_eq_none_iff st.openStreams h).mpr hmem]
  · intro st hreach h fc ret
    rw [closeFile]
    cases hlk : lookupKey st.openStreams h with
    | none =>
      rw [readDataH, hlk]
    | some sr =>
      have hmem := lookupKey_some_mem hlk
      have hrv : sr.randomValue = h := (reachable_streamWF hreach).2 (h, sr) hmem
      rw [readDataH]
      dsimp only
      rw [hrv, lookupKey_eraseKey]

/-- Witness for `c9_absent_handle_benign`: handle 9 was never opened in
`streamState`, and handle 7 reads 0 after being closed. -/
theorem c9_absent_handle_benign_witness :
    readDataH streamState 9 5 = 0 ∧
    closeFile streamState 9 0 = (streamState, 0) ∧
    readDataH (closeFile streamState 7 0).1 7 5 = 0 :=
  ⟨c9_absent_handle_benign.1 streamState 9 5 (by decide),
   c9_absent_handle_benign.2.1 streamState 9 0 (by decide),
   c9_absent_handle_benign.2.2 streamState ⟨_, rfl⟩ 7 0 5⟩

/-! ## Claim C4 -/

/-- C4, counterexample.  An archive whose entry list contains the raw
name `a/b.png` twice is indexed by `addArchive` without any error under
the default configuration: the duplicate check compares the raw entry
name against the normalized keys of the record map (`b.png` here), so the
second occurrence is not detected and both records end up stored under
the same key. -/
theorem c4_counterexample :
    (addArchive initState "a.zip" "" true
      (.entry ⟨"a/b.png", 3, 0⟩ true (.entry ⟨"a/b.png", 3, 1⟩ true .done))).threw = false ∧
    ((lookupKey (addArchive initState "a.zip" "" true
        (.entry ⟨"a/b.png", 3, 0⟩ true
          (.entry ⟨"a/b.png", 3, 1⟩ true .done))).finalState.filenameToRecordMap
      "b.png").getD []).length = 2 := by
  decide

/-- C4, amended.  `addArchive` aborts with a fatal error exactly at an
entry whose raw name already occurs as a lookup key in the record map —
whether that key was stored by earlier entries of the same pass or by any
prior indexing.  A duplicate raw entry name is therefore fatal only when
the raw name coincides with the key under which the first occurrence was
stored (for example an all-lower-case bare filename under the default
key configuration); otherwise both occurrences are indexed, as
`c4_counterexample` shows. -/
theorem c4_amended_duplicate_key_fatal
    (st : ManagerState) (p rf : String) (e : ArchiveEntry) (rest : ZipEnum)
    (hdup : (lookupKey st.filenameToRecordMap e.name).isSome = true) :
    (addArchiveLoop p rf st e true rest).threw = true ∧
    (addArchiveLoop p rf st e true rest).finalState = st := by
  have hstep : stepArchiveEntry st p rf e true = none := by
    rw [stepArchiveEntry]
    rw [if_neg (by decide : ¬ ((!true) = true))]
    rw [if_pos hdup]
  cases rest with
  | fail =>
    rw [addArchiveLoop, hstep]
    exact ⟨rfl, rfl⟩
  | done =>
    rw [addArchiveLoop, hstep]
    exact ⟨rfl, rfl⟩
  | entry e2 p2 r2 =>
    rw [addArchiveLoop, hstep]
    exact ⟨rfl, rfl⟩

/-- State after indexing an archive with the single entry `b.png`, whose
raw name equals its own normalized key. -/
def c4DupState : ManagerState :=
  (addArchive initState "a.zip" "" true (.entry ⟨"b.png", 3, 0⟩ true .done)).finalState

/-- Witness for `c4_amended_duplicate_key_fatal`: a second `b.png` entry
is fatal because the raw name equals the key stored by the first. -/
theorem c4_amended_witness :
    (addArchiveLoop "a.zip" "" c4DupState ⟨"b.png", 3, 1⟩ true .done).threw = true ∧
    (addArchiveLoop "a.zip" "" c4DupState ⟨"b.png", 3, 1⟩ true .done).finalState = c4DupState :=
  c4_amended_duplicate_key_fatal c4DupState "a.zip" "" ⟨"b.png", 3, 1⟩ .done (by decide)

/-! ## Claim C5 -/

/-- C5.  On every aborting `addArchive` path that follows a successful
`unzOpen` — a failed first-entry enumeration step, a failed later
enumeration step, and a duplicate-name detection — the error propagates
with the opened archive handle still open: the catch block tests the
outer `unzFile zipFile = nullptr`, which the inner declaration shadows,
so `unzClose` never runs.  The claim (and the spec) says the handle must
be closed before propagation; the cleanup code present in the catch block
shows that this was the intent, so the shadowing is a defect of the code,
not of the specification. -/
theorem c5_archive_handle_leak :
    ((addArchive initState "pack.zip" "" true .fail).threw = true ∧
      (addArchive initState "pack.zip" "" true .fail).openedHandle = true ∧
      (addArchive initState "pack.zip" "" true .fail).handleClosed = false) ∧
    ((addArchive initState "pack.zip" "" true
        (.entry ⟨"a.png", 3, 0⟩ true .fail)).threw = true ∧
      (addArchive initState "pack.zip" "" true
        (.entry ⟨"a.png", 3, 0⟩ true .fail)).openedHandle = true ∧
      (addArchive initState "pack.zip" "" true
        (.entry ⟨"a.png", 3, 0⟩ true .fail)).handleClosed = false) ∧
    ((addArchive initState "pack.zip" "" true
        (.entry ⟨"b.png", 3, 0⟩ true (.entry ⟨"b.png", 3, 1⟩ true .done))).threw = true ∧
      (addArchive initState "pack.zip" "" true
        (.entry ⟨"b.png", 3, 0⟩ true (.entry ⟨"b.png", 3, 1⟩ true .done))).openedHandle = true ∧
      (addArchive initState "pack.zip" "" true
        (.entry ⟨"b.png", 3, 0⟩ true
          (.entry ⟨"b.png", 3, 1⟩ true .done))).handleClosed = false) := by
  decide

/-! ## Lemmas about `combine` -/

/-- Character accumulator built by the fold inside `combine`, before the
trailing separator is dropped. -/
def combineAux (l : List String) : List Char :=
  l.foldl (fun acc c => if c = "" then acc else acc ++ c.data ++ ['/']) []

theorem combine_eq_aux (l : List String) : combine l = ⟨(combineAux l).dropLast⟩ := rfl

theorem foldl_combine_acc (l : List String) :
    ∀ acc : List Char,
      l.foldl (fun a c => if c = "" then a else a ++ c.data ++ ['/']) acc =
        acc ++ l.foldl (fun a c => if c = "" then a else a ++ c.data ++ ['/']) [] := by
  induction l with
  | nil =>
    intro acc
    simp
  | cons c rest ih =>
    intro acc
    rw [List.foldl_cons, List.foldl_cons]
    conv_lhs => rw [ih]
    conv_rhs => rw [ih]
    by_cases hc : c = "" <;> simp [hc]

theorem combineAux_cons (c : String) (l : List String) :
    combineAux (c :: l) =
      (if c = "" then [] else c.data ++ ['/']) ++ combineAux l := by
  simp only [combineAux]
  rw [List.foldl_cons, foldl_combine_acc]
  by_cases hc : c = "" <;> simp [hc]

theorem combineAux_append (l₁ l₂ : List String) :
    combineAux (l₁ ++ l₂) = combineAux l₁ ++ combineAux l₂ := by
  induction l₁ with
  | nil => simp [combineAux]
  | cons c rest ih =>
    rw [List.cons_append, combineAux_cons, combineAux_cons, ih, List.append_assoc]

theorem combineAux_length (l : List String) :
    combineAux l = [] ∨ 2 ≤ (combineAux l).length := by
  induction l with
  | nil => exact Or.inl rfl
  | cons c rest ih =>
    rw [combineAux_cons]
    by_cases hc : c = ""
    · rw [if_pos hc]
      simpa using ih
    · rw [if_neg hc]
      right
      have hcd : c.data ≠ [] := by
        intro hcontra
        exact hc (congrArg (fun l => (⟨l⟩ : String)) hcontra)
      have h1 : 1 ≤ c.data.length := by
        cases hd : c.data with
        | nil => exact absurd hd hcd
        | cons a as => simp
      simp only [List.append_assoc, List.length_append, List.length_cons]
      omega

theorem combineAux_eq_dropLast_concat (l : List String) (h : combineAux l ≠ []) :
    combineAux l = (combineAux l).dropLast ++ ['/'] := by
  induction l with
  | nil => exact absurd rfl h
  | cons c rest ih =>
    rw [combineAux_cons] at h ⊢
    by_cases hc : c = ""
    · rw [if_pos hc] at h ⊢
      rw [List.nil_append] at h ⊢
      exact ih h
    · rw [if_neg hc] at h ⊢
      by_cases hrest : combineAux rest = []
      · rw [hrest, List.append_nil]
        rw [List.dropLast_concat]
      · rw [List.dropLast_append_of_ne_nil _ hrest]
        conv_lhs => rw [ih hrest]
        simp [List.append_assoc]

theorem fpart_combine (l : List String) :
    (if combine l = "" then [] else (combine l).data ++ ['/']) = combineAux l := by
  by_cases h : combineAux l = []
  · have hc : combine l = "" := by
      rw [combine_eq_aux, h]
      rfl
    rw [if_pos hc, h]
  · have hlen := (combineAux_length l).resolve_left h
    have hdata : (combine l).data = (combineAux l).dropLast := by
      rw [combine_eq_aux]
    have hne : combine l ≠ "" := by
      intro hcontra
      have hd := congrArg String.data hcontra
      rw [hdata] at hd
      have hlen2 := congrArg List.length hd
      rw [List.length_dropLast] at hlen2
      simp at hlen2
      omega
    rw [if_neg hne, hdata]
    exact (combineAux_eq_dropLast_concat l h).symm

theorem combine_cons_combine (l₁ l₂ : List String) :
    combine (combine l₁ :: l₂) = combine (l₁ ++ l₂) := by
  have hdata : combineAux (combine l₁ :: l₂) = combineAux (l₁ ++ l₂) := by
    rw [combineAux_cons, combineAux_append, fpart_combine]
  rw [combine_eq_aux (combine l₁ :: l₂), combine_eq_aux (l₁ ++ l₂), hdata]

theorem combine_single (s : String) : combine [s] = s := by
  rw [combine_eq_aux, combineAux_cons]
  by_cases h : s = ""
  · rw [if_pos h, h]
    rfl
  · rw [if_neg h]
    show (⟨((s.data ++ ['/']) ++ combineAux []).dropLast⟩ : String) = s
    rw [show combineAux [] = [] from rfl, List.append_nil, List.dropLast_concat]

theorem combine_empty_cons (l : List String) : combine ("" :: l) = combine l := rfl

theorem combine_pair_empty_left (s : String) : combine ["", s] = s := by
  rw [combine_empty_cons, combine_single]

/-! ## Lemmas about `basename`, `tolower`, `replaceAll` and `makeKey` -/

theorem takeWhile_append_stop {α : Type} (p : α → Bool) :
    ∀ (l₁ : List α) (a : α) (l₂ : List α), (∀ x ∈ l₁, p x = true) → p a = false →
      (l₁ ++ a :: l₂).takeWhile p = l₁ := by
  intro l₁
  induction l₁ with
  | nil =>
    intro a l₂ _ hpa
    simp [List.takeWhile_cons, hpa]
  | cons x xs ih =>
    intro a l₂ h hpa
    rw [List.cons_append, List.takeWhile_cons, h x (List.mem_cons_self x xs)]
    rw [ih a l₂ (fun y hy => h y (List.mem_cons_of_mem x hy)) hpa]
    rw [if_pos rfl]

theorem basenameStr_sepFree {s : String} (h : ∀ c ∈ s.data, c ≠ '/' ∧ c ≠ '\\') :
    basenameStr s = s := by
  rw [basenameStr]
  have htw : s.data.reverse.takeWhile (fun c => !(c = '/' || c = '\\')) = s.data.reverse := by
    rw [List.takeWhile_eq_self_iff]
    intro c hc
    have hcc := h c (List.mem_reverse.mp hc)
    simp [hcc.1, hcc.2]
  rw [htw, List.reverse_reverse]

theorem basenameStr_after_sep (A : List Char) (n : String)
    (h : ∀ c ∈ n.data, c ≠ '/' ∧ c ≠ '\\') :
    basenameStr ⟨A ++ '/' :: n.data⟩ = n := by
  rw [basenameStr]
  have hrev : (A ++ '/' :: n.data).reverse = n.data.reverse ++ '/' :: A.reverse := by
    rw [List.reverse_append, List.reverse_cons, List.append_assoc]
    rfl
  show (⟨((A ++ '/' :: n.data).reverse.takeWhile
      (fun c => !(c = '/' || c = '\\'))).reverse⟩ : String) = n
  rw [hrev, takeWhile_append_stop _ _ _ _
    (fun x hx => by
      have hcc := h x (List.mem_reverse.mp hx)
      simp [hcc.1, hcc.2])
    (by simp), List.reverse_reverse]

theorem basenameStr_combine_concat (l : List String) (n : String)
    (hn : n ≠ "") (h : ∀ c ∈ n.data, c ≠ '/' ∧ c ≠ '\\') :
    basenameStr (combine (l ++ [n])) = n := by
  rw [combine_eq_aux, combineAux_append]
  have haux : combineAux [n] = n.data ++ ['/'] := by
    rw [combineAux_cons, if_neg hn]
    simp [combineAux]
  rw [haux]
  have hdl : (combineAux l ++ (n.data ++ ['/'])).dropLast = combineAux l ++ n.data := by
    rw [← List.append_assoc, List.dropLast_concat]
  rw [hdl]
  by_cases hl : combineAux l = []
  · rw [hl, List.nil_append]
    exact basenameStr_sepFree h
  · rw [combineAux_eq_dropLast_concat l hl, List.append_assoc]
    exact basenameStr_after_sep _ n h

theorem tolowerChar_in_range {c : Char} (h : 65 ≤ c.toNat ∧ c.toNat ≤ 90) :
    tolowerChar c = Char.ofNat (c.toNat + 32) := by
  rw [tolowerChar, if_pos h]

theorem tolowerChar_out_range {c : Char} (h : ¬(65 ≤ c.toNat ∧ c.toNat ≤ 90)) :
    tolowerChar c = c := by
  rw [tolowerChar, if_neg h]

theorem tolowerChar_ofNat_fixed (k : Nat) (h1 : 65 ≤ k) (h2 : k ≤ 90) :
    tolowerChar (Char.ofNat (k + 32)) = Char.ofNat (k + 32) := by
  interval_cases k <;> decide

theorem tolowerChar_ofNat_ne_sep (k : Nat) (h1 : 65 ≤ k) (h2 : k ≤ 90) :
    Char.ofNat (k + 32) ≠ '/' ∧ Char.ofNat (k + 32) ≠ '\\' := by
  interval_cases k <;> exact ⟨by decide, by decide⟩

theorem tolowerChar_idem (c : Char) : tolowerChar (tolowerChar c) = tolowerChar c := by
  by_cases h : 65 ≤ c.toNat ∧ c.toNat ≤ 90
  · rw [tolowerChar_in_range h]
    exact tolowerChar_ofNat_fixed c.toNat h.1 h.2
  · rw [tolowerChar_out_range h]
    exact tolowerChar_out_range h

theorem tolowerChar_ne_slash {c : Char} (h : c ≠ '/') : tolowerChar c ≠ '/' := by
  by_cases hr : 65 ≤ c.toNat ∧ c.toNat ≤ 90
  · rw [tolowerChar_in_range hr]
    exact (tolowerChar_ofNat_ne_sep c.toNat hr.1 hr.2).1
  · rw [tolowerChar_out_range hr]
    exact h

theorem tolowerChar_ne_backslash {c : Char} (h : c ≠ '\\') : tolowerChar c ≠ '\\' := by
  by_cases hr : 65 ≤ c.toNat ∧ c.toNat ≤ 90
  · rw [tolowerChar_in_range hr]
    exact (tolowerChar_ofNat_ne_sep c.toNat hr.1 hr.2).2
  · rw [tolowerChar_out_range hr]
    exact h

theorem lowerStr_sepFree {s : String} (h : ∀ c ∈ s.data, c ≠ '/' ∧ c ≠ '\\') :
    ∀ c ∈ (lowerStr s).data, c ≠ '/' ∧ c ≠ '\\' := by
  intro c hc
  obtain ⟨x, hx, rfl⟩ := List.mem_map.mp hc
  exact ⟨tolowerChar_ne_slash (h x hx).1, tolowerChar_ne_backslash (h x hx).2⟩

theorem lowerStr_bsFree {s : String} (h : ∀ c ∈ s.data, c ≠ '\\') :
    ∀ c ∈ (lowerStr s).data, c ≠ '\\' := by
  intro c hc
  obtain ⟨x, hx, rfl⟩ := List.mem_map.mp hc
  exact tolowerChar_ne_backslash (h x hx)

theorem lowerStr_fixed (s : String) : ∀ c ∈ (lowerStr s).data, tolowerChar c = c := by
  intro c hc
  obtain ⟨x, hx, rfl⟩ := List.mem_map.mp hc
  exact tolowerChar_idem x

theorem lowerStr_of_fixed {s : String} (h : ∀ c ∈ s.data, tolowerChar c = c) :
    lowerStr s = s := by
  rw [lowerStr]
  show (⟨s.data.map tolowerChar⟩ : String) = s
  rw [List.map_congr_left h, List.map_id']

theorem replaceAllAux_bs_noop :
    ∀ (fuel : Nat) (s : List Char), (∀ c ∈ s, c ≠ '\\') →
      replaceAllAux ['\\', '\\'] ['/'] fuel s = s := by
  intro fuel
  induction fuel with
  | zero =>
    intro s _
    rfl
  | succ n ih =>
    intro s h
    cases s with
    | nil => rfl
    | cons c cs =>
      rw [replaceAllAux]
      have hpre : (['\\', '\\'].isPrefixOf (c :: cs)) = false := by
        have hc : ('\\' == c) = false := by
          rw [beq_eq_false_iff_ne]
          exact fun he => (h c (List.mem_cons_self c cs)) he.symm
        show (('\\' == c) && _) = false
        rw [hc]
        rfl
      rw [if_neg (by simp [hpre])]
      rw [ih cs (fun x hx => h x (List.mem_cons_of_mem c hx))]

theorem replaceAllStr_bs_noop {s : String} (h : ∀ c ∈ s.data, c ≠ '\\') :
    replaceAllStr s "\\\\" "/" = s := by
  have h1 : "\\\\".data = ['\\', '\\'] := rfl
  have h2 : "/".data = ['/'] := rfl
  rw [replaceAllStr, h1, h2, replaceAllAux_bs_noop _ _ h]

theorem replaceChar_noop {s : String} {a b : Char} (h : ∀ c ∈ s.data, c ≠ a) :
    replaceChar s a b = s := by
  rw [replaceChar]
  show (⟨s.data.map (fun c => if c = a then b else c)⟩ : String) = s
  rw [List.map_congr_left (fun c hc => if_neg (h c hc)), List.map_id']

theorem replaceChar_no_occ {s : String} {a b : Char} (hab : b ≠ a) :
    ∀ c ∈ (replaceChar s a b).data, c ≠ a := by
  intro c hc
  obtain ⟨x, hx, rfl⟩ := List.mem_map.mp hc
  by_cases hxa : x = a
  · rw [if_pos hxa]
    exact hab
  · rw [if_neg hxa]
    exact hxa

theorem replaceAllAux_all {P : Char → Prop} :
    ∀ (fuel : Nat) (s pat repl : List Char),
      (∀ c ∈ s, P c) → (∀ c ∈ repl, P c) →
      ∀ c ∈ replaceAllAux pat repl fuel s, P c := by
  intro fuel
  induction fuel with
  | zero =>
    intro s pat repl hs _ c hc
    exact hs c hc
  | succ n ih =>
    intro s pat repl hs hrepl c hc
    cases s with
    | nil => cases hc
    | cons x xs =>
      rw [replaceAllAux] at hc
      by_cases hpre : pat.isPrefixOf (x :: xs)
      · rw [if_pos hpre] at hc
        rcases List.mem_append.mp hc with hc | hc
        · exact hrepl c hc
        · exact ih _ pat repl
            (fun y hy => hs y (List.mem_of_mem_drop hy)) hrepl c hc
      · rw [if_neg hpre] at hc
        rcases List.mem_cons.mp hc with hc | hc
        · exact hc ▸ hs x (List.mem_cons_self x xs)
        · exact ih xs pat repl
            (fun y hy => hs y (List.mem_cons_of_mem x hy)) hrepl c hc

theorem basenameStr_result_sepFree (s : String) :
    ∀ c ∈ (basenameStr s).data, c ≠ '/' ∧ c ≠ '\\' := by
  intro c hc
  rw [basenameStr] at hc
  rw [List.mem_reverse] at hc
  have hp := List.mem_takeWhile_imp hc
  simp only [Bool.not_eq_true', Bool.or_eq_false_iff, decide_eq_false_iff_not] at hp
  exact hp

theorem makeKey_false_eq (s : String) : makeKey false s = lowerStr (basenameStr s) := by
  show replaceChar (replaceAllStr (lowerStr (basenameStr s)) "\\\\" "/") '\\' '/' =
    lowerStr (basenameStr s)
  have hbs : ∀ c ∈ (lowerStr (basenameStr s)).data, c ≠ '\\' :=
    fun c hc => (lowerStr_sepFree (basenameStr_result_sepFree s) c hc).2
  rw [replaceAllStr_bs_noop hbs, replaceChar_noop hbs]

theorem makeKey_true_eq_of_bsFree {s : String} (h : ∀ c ∈ s.data, c ≠ '\\') :
    makeKey true s = lowerStr s := by
  show replaceChar (replaceAllStr (lowerStr s) "\\\\" "/") '\\' '/' = lowerStr s
  have hbs := lowerStr_bsFree h
  rw [replaceAllStr_bs_noop hbs, replaceChar_noop hbs]

theorem makeKey_false_sepFree (s : String) :
    ∀ c ∈ (makeKey false s).data, c ≠ '/' ∧ c ≠ '\\' := by
  rw [makeKey_false_eq]
  exact lowerStr_sepFree (basenameStr_result_sepFree s)

theorem makeKey_bsFree (b : Bool) (s : String) :
    ∀ c ∈ (makeKey b s).data, c ≠ '\\' := by
  show ∀ c ∈ (replaceChar (replaceAllStr (lowerStr (if b then s else basenameStr s))
      "\\\\" "/") '\\' '/').data, c ≠ '\\'
  exact replaceChar_no_occ (by decide)

theorem makeKey_fixed_lower (b : Bool) (s : String) :
    ∀ c ∈ (makeKey b s).data, tolowerChar c = c := by
  show ∀ c ∈ (replaceChar (replaceAllStr (lowerStr (if b then s else basenameStr s))
      "\\\\" "/") '\\' '/').data, tolowerChar c = c
  have h1 : ∀ c ∈ (replaceAllStr (lowerStr (if b then s else basenameStr s))
      "\\\\" "/").data, tolowerChar c = c := by
    rw [replaceAllStr]
    exact replaceAllAux_all _ _ _ _ (lowerStr_fixed _)
      (by
        intro c hc
        have : c = '/' := by simpa using hc
        rw [this]
        decide)
  intro c hc
  obtain ⟨x, hx, rfl⟩ := List.mem_map.mp hc
  by_cases hxa : x = '\\'
  · rw [if_pos hxa]
    decide
  · rw [if_neg hxa]
    exact h1 x hx

theorem makeKey_idem (b : Bool) (s : String) : makeKey b (makeKey b s) = makeKey b s := by
  cases b with
  | false =>
    rw [makeKey_false_eq (makeKey false s),
      basenameStr_sepFree (makeKey_false_sepFree s),
      lowerStr_of_fixed (makeKey_fixed_lower false s)]
  | true =>
    rw [makeKey_true_eq_of_bsFree (makeKey_bsFree true s),
      lowerStr_of_fixed (makeKey_fixed_lower true s)]

theorem makeKey_empty_root (b : Bool) (q : String) :
    makeKey b (combine ["", makeKey b q]) = makeKey b q := by
  rw [combine_pair_empty_left, makeKey_idem]

/-! ## Characterization of the directory walk -/

/-- A file with the given name and stat oracle sits below the given chain
of subdirectory names in a directory listing. -/
inductive FileAt : DirTree → List String → String → Option Int → Prop where
  | here (n : String) (sz : Option Int) (rest : DirTree) :
      FileAt (.consFile n sz rest) [] n sz
  | enter {sub : DirTree} {ds : List String} {n : String} {sz : Option Int}
      (d : String) (rest : DirTree) :
      FileAt sub ds n sz → FileAt (.consDirOk d sub rest) (d :: ds) n sz
  | skipFile {rest : DirTree} {ds : List String} {n : String} {sz : Option Int}
      (m : String) (s2 : Option Int) :
      FileAt rest ds n sz → FileAt (.consFile m s2 rest) ds n sz
  | skipDirOk {rest : DirTree} {ds : List String} {n : String} {sz : Option Int}
      (d : String) (sub : DirTree) :
      FileAt rest ds n sz → FileAt (.consDirOk d sub rest) ds n sz
  | skipDirFail {rest : DirTree} {ds : List String} {n : String} {sz : Option Int}
      (d : String) :
      FileAt rest ds n sz → FileAt (.consDirFail d rest) ds n sz

/-- Every record produced by the walk comes from a file at some chain of
directory names, and its key is built from the incoming
`relativeFolderInMap`, the names of the chain's directories that did not
match a category folder, and the file name. -/
theorem walk_key_char (lm cm : List (String × String)) (sbrp : Bool) :
    ∀ (t : DirTree) (rf relF m lang cat key : String) (r : FileRecord),
      (key, r) ∈ walkEntries lm cm sbrp rf relF m lang cat t →
      ∃ ds n sz, FileAt t ds n sz ∧ r.filename = n ∧ r.fileType = .RegularFile ∧
        r.size = toSizeT (getFileSizeModel sz) ∧
        key = makeKey sbrp
          (combine (m :: ds.filter (fun d => (lookupKey cm d).isNone) ++ [n])) := by
  intro t
  induction t with
  | nilEntries =>
    intro rf relF m lang cat key r h
    cases h
  | consFile n sz rest ihrest =>
    intro rf relF m lang cat key r h
    rw [walkEntries] at h
    rcases List.mem_append.mp h with h | h
    · by_cases hdot : headIsDot n
      · rw [if_pos hdot] at h
        cases h
      · rw [if_neg hdot] at h
        simp only [List.mem_singleton] at h
        rw [Prod.mk.injEq] at h
        obtain ⟨hkey, hr⟩ := h
        refine ⟨[], n, sz, FileAt.here n sz rest, ?_, ?_, ?_, ?_⟩
        · rw [hr]
        · rw [hr]
        · rw [hr]
        · exact hkey
    · obtain ⟨ds, n2, sz2, hfa, h1, h2, h3, hkey⟩ :=
        ihrest rf relF m lang cat key r h
      exact ⟨ds, n2, sz2, FileAt.skipFile n sz hfa, h1, h2, h3, hkey⟩
  | consDirOk d sub rest ihsub ihrest =>
    intro rf relF m lang cat key r h
    rw [walkEntries] at h
    rcases List.mem_append.mp h with h | h
    · by_cases hdot : headIsDot d
      · rw [if_pos hdot] at h
        cases h
      · rw [if_neg hdot] at h
        cases hcat : lookupKey cm d with
        | some c =>
          simp only [hcat] at h
          obtain ⟨ds, n, sz, hfa, h1, h2, h3, hkey⟩ :=
            ihsub _ _ _ _ _ _ _ h
          refine ⟨d :: ds, n, sz, FileAt.enter d rest hfa, h1, h2, h3, ?_⟩
          rw [hkey]
          have hfil : (d :: ds).filter (fun x => (lookupKey cm x).isNone) =
              ds.filter (fun x => (lookupKey cm x).isNone) := by
            rw [List.filter_cons]
            simp [hcat]
          rw [hfil]
        | none =>
          simp only [hcat] at h
          obtain ⟨ds, n, sz, hfa, h1, h2, h3, hkey⟩ :=
            ihsub _ _ _ _ _ _ _ h
          refine ⟨d :: ds, n, sz, FileAt.enter d rest hfa, h1, h2, h3, ?_⟩
          rw [hkey]
          have hfil : (d :: ds).filter (fun x => (lookupKey cm x).isNone) =
              d :: ds.filter (fun x => (lookupKey cm x).isNone) := by
            rw [List.filter_cons]
            simp [hcat]
          rw [hfil]
          rw [show (combine [m, d] :: ds.filter (fun x => (lookupKey cm x).isNone) ++ [n]) =
            (combine [m, d] :: (ds.filter (fun x => (lookupKey cm x).isNone) ++ [n])) from rfl]
          rw [combine_cons_combine]
          rfl
    · obtain ⟨ds, n2, sz2, hfa, h1, h2, h3, hkey⟩ :=
        ihrest rf relF m lang cat key r h
      exact ⟨ds, n2, sz2, FileAt.skipDirOk d sub hfa, h1, h2, h3, hkey⟩
  | consDirFail d rest ihrest =>
    intro rf relF m lang cat key r h
    rw [walkEntries] at h
    obtain ⟨ds, n2, sz2, hfa, h1, h2, h3, hkey⟩ :=
      ihrest rf relF m lang cat key r h
    exact ⟨ds, n2, sz2, FileAt.skipDirFail d hfa, h1, h2, h3, hkey⟩

/-- The key list produced by the walk does not depend on the root-folder
path, the relative folder, or the inherited language and category. -/
theorem walk_keys_ctx (lm cm : List (String × String)) (sbrp : Bool) :
    ∀ (t : DirTree) (rf relF m lang cat rf2 relF2 lang2 cat2 : String),
      (walkEntries lm cm sbrp rf relF m lang cat t).map Prod.fst =
        (walkEntries lm cm sbrp rf2 relF2 m lang2 cat2 t).map Prod.fst := by
  intro t
  induction t with
  | nilEntries =>
    intro rf relF m lang cat rf2 relF2 lang2 cat2
    rfl
  | consFile n sz rest ihrest =>
    intro rf relF m lang cat rf2 relF2 lang2 cat2
    rw [walkEntries, walkEntries, List.map_append, List.map_append]
    rw [ihrest rf relF m lang cat rf2 relF2 lang2 cat2]
    congr 1
    by_cases hdot : headIsDot n
    · rw [if_pos hdot, if_pos hdot]
    · rw [if_neg hdot, if_neg hdot]
      rfl
  | consDirOk d sub rest ihsub ihrest =>
    intro rf relF m lang cat rf2 relF2 lang2 cat2
    rw [walkEntries, walkEntries, List.map_append, List.map_append]
    rw [ihrest rf relF m lang cat rf2 relF2 lang2 cat2]
    congr 1
    by_cases hdot : headIsDot d
    · rw [if_pos hdot, if_pos hdot]
    · rw [if_neg hdot, if_neg hdot]
      cases hcat : lookupKey cm d with
      | some c =>
        simp only [hcat]
        exact ihsub _ _ _ _ _ _ _ _ _
      | none =>
        simp only [hcat]
        exact ihsub _ _ _ _ _ _ _ _ _
  | consDirFail d rest ihrest =>
    intro rf relF m lang cat rf2 relF2 lang2 cat2
    rw [walkEntries, walkEntries]
    exact ihrest rf relF m lang cat rf2 relF2 lang2 cat2

/-! ## Claim C6 -/

/-- C6.  First conjunct: every record indexed by the directory walk comes
from a file below a chain of directory names, and its lookup key is built
from exactly the names of that chain that did not match a registered
category folder (category-matching directory names are omitted) plus the
file name, normalized by `makeKey`.  Second conjunct: walking a listing
whose single entry is a non-hidden category-matching directory produces
the same key list as walking that directory's contents directly, so every
file is found under the same key whether or not it sits inside the
category-tagged subfolder. -/
theorem c6_category_folder_transparent_key :
    (∀ (lm cm : List (String × String)) (sbrp : Bool) (t : DirTree)
        (rf relF m lang cat key : String) (r : FileRecord),
      (key, r) ∈ walkEntries lm cm sbrp rf relF m lang cat t →
      ∃ ds n sz, FileAt t ds n sz ∧ r.filename = n ∧
        key = makeKey sbrp
          (combine (m :: ds.filter (fun d => (lookupKey cm d).isNone) ++ [n]))) ∧
    (∀ (lm cm : List (String × String)) (sbrp : Bool) (sub : DirTree)
        (rf relF m lang cat d c : String),
      lookupKey cm d = some c → headIsDot d = false →
      (walkEntries lm cm sbrp rf relF m lang cat
          (.consDirOk d sub .nilEntries)).map Prod.fst =
        (walkEntries lm cm sbrp rf relF m lang cat sub).map Prod.fst) := by
  constructor
  · intro lm cm sbrp t rf relF m lang cat key r h
    obtain ⟨ds, n, sz, hfa, h1, _, _, hkey⟩ :=
      walk_key_char lm cm sbrp t rf relF m lang cat key r h
    exact ⟨ds, n, sz, hfa, h1, hkey⟩
  · intro lm cm sbrp sub rf relF m lang cat d c hcat hdot
    rw [walkEntries]
    rw [if_neg (by rw [hdot]; exact Bool.false_ne_true)]
    simp only [hcat]
    rw [show walkEntries lm cm sbrp rf relF m lang cat .nilEntries =
      ([] : List (String × FileRecord)) from rfl]
    rw [List.append_nil]
    exact walk_keys_ctx lm cm sbrp sub _ _ _ _ _ _ _ _ _

def c6Tree : DirTree :=
  .consDirOk "hd" (.consFile "a.png" (some 1) .nilEntries) .nilEntries

def c6CatMap : List (String × String) := [("hd", "HD")]

def c6Record : FileRecord :=
  { filename := "a.png"
    fileType := .RegularFile
    size := 1
    languageId := ""
    category := "HD"
    filePath := "root/hd/a.png"
    relativePath := "hd/a.png"
    zipFilePath := ""
    zipFilePos := 0 }

/-- Witness for `c6_category_folder_transparent_key` on a listing with a
single `HD`-category folder `hd` containing `a.png`. -/
theorem c6_category_folder_transparent_key_witness :
    (∃ ds n sz, FileAt c6Tree ds n sz ∧ c6Record.filename = n ∧
      "a.png" = makeKey false
        (combine ("" :: ds.filter (fun d => (lookupKey c6CatMap d).isNone) ++ [n]))) ∧
    (walkEntries [] c6CatMap false "root" "" "" "" "" c6Tree).map Prod.fst =
      (walkEntries [] c6CatMap false "root" "" "" "" ""
        (.consFile "a.png" (some 1) .nilEntries)).map Prod.fst :=
  ⟨c6_category_folder_transparent_key.1 [] c6CatMap false c6Tree "root" "" "" "" ""
      "a.png" c6Record (by decide),
   c6_category_folder_transparent_key.2 [] c6CatMap false
      (.consFile "a.png" (some 1) .nilEntries) "root" "" "" "" "" "hd" "HD"
      (by decide) (by decide)⟩

/-! ## Claim C3 -/

theorem applyOp_addRootFolder_map (st : ManagerState) (rootName : String) (tree : DirTree) :
    (applyOp st (.addRootFolder rootName tree)).filenameToRecordMap =
      mapAppendMany st.filenameToRecordMap (rootFolderRecords st rootName tree) := rfl

theorem applyOp_addRootFolder_sbrp (st : ManagerState) (rootName : String) (tree : DirTree) :
    (applyOp st (.addRootFolder rootName tree)).searchByRelativePaths =
      st.searchByRelativePaths := rfl

theorem applyOp_addRootFolder_roots (st : ManagerState) (rootName : String) (tree : DirTree) :
    (applyOp st (.addRootFolder rootName tree)).searchRootsList = st.searchRootsList := rfl

/-- Reachable state indexing `hd/sprite.png` with `searchByRelativePaths`
enabled and directory name `hd` registered as category `HD`. -/
def c3State : ManagerState :=
  applyOps initState
    [ .setSearchByRelativePaths true
    , .addCategoryFolder "HD" "hd"
    , .enableCategory "HD"
    , .addRootFolder "root"
        (.consDirOk "hd" (.consFile "sprite.png" (some 3) .nilEntries) .nilEntries) ]

def c3Record : FileRecord :=
  { filename := "sprite.png"
    fileType := .RegularFile
    size := 3
    languageId := ""
    category := "HD"
    filePath := "root/hd/sprite.png"
    relativePath := "hd/sprite.png"
    zipFilePath := ""
    zipFilePos := 0 }

/-- C3, counterexample.  With `searchByRelativePaths` enabled, the
record for the registered regular file with full relative path
`hd/sprite.png` is stored (and admissible, its `HD` category being
enabled), yet `exists("hd/sprite.png")` is false: the lookup key is built
from the category-stripped path `sprite.png`, not from the full relative
path, so the claim fails for files inside a category-matching folder. -/
theorem c3_counterexample :
    c3State.searchByRelativePaths = true ∧
    c3Record ∈ (lookupKey c3State.filenameToRecordMap "sprite.png").getD [] ∧
    admissibleB c3State c3Record = true ∧
    c3Record.relativePath = "hd/sprite.png" ∧
    existsQ c3State "hd/sprite.png" = false ∧
    existsQ c3State "sprite.png" = true := by
  decide

/-- C3, amended.  For every regular file registered by `addRootFolder`
whose record is admissible in the resulting state, and with the empty
search root configured (the default): when `searchByRelativePaths` is
false, `exists` is true for the bare filename in any character case (for
separator-free, non-empty names); when `searchByRelativePaths` is true,
`exists` is true for any character-case variant of the record's stored
key — the category-stripped relative path, which equals the full relative
path exactly when the file lies under no category-matching folder
(`c3_counterexample` shows the full relative path failing under one). -/
theorem c3_amended_exists_lookup :
    (∀ (st : ManagerState) (rootName : String) (tree : DirTree) (key q : String)
        (r : FileRecord),
      st.searchByRelativePaths = false →
      (key, r) ∈ rootFolderRecords st rootName tree →
      admissibleB (applyOp st (.addRootFolder rootName tree)) r = true →
      "" ∈ st.searchRootsList →
      (∀ c ∈ r.filename.data, c ≠ '/' ∧ c ≠ '\\') →
      r.filename ≠ "" →
      (∀ c ∈ q.data, c ≠ '/' ∧ c ≠ '\\') →
      lowerStr q = lowerStr r.filename →
      existsQ (applyOp st (.addRootFolder rootName tree)) q = true) ∧
    (∀ (st : ManagerState) (rootName : String) (tree : DirTree) (key q : String)
        (r : FileRecord),
      st.searchByRelativePaths = true →
      (key, r) ∈ rootFolderRecords st rootName tree →
      admissibleB (applyOp st (.addRootFolder rootName tree)) r = true →
      "" ∈ st.searchRootsList →
      (∀ c ∈ q.data, c ≠ '\\') →
      lowerStr q = key →
      existsQ (applyOp st (.addRootFolder rootName tree)) q = true) := by
  constructor
  · intro st rootName tree key q r hsb hmem hadm hroot hfn hfne hq hlow
    rw [existsQ, findFileRecord_isSome_iff]
    have hmemF := hmem
    rw [rootFolderRecords, hsb] at hmemF
    obtain ⟨ds, n, sz, _, h1, _, _, hkey⟩ :=
      walk_key_char _ _ false tree rootName "" "" "" "" key r hmemF
    have hnsep : ∀ c ∈ n.data, c ≠ '/' ∧ c ≠ '\\' := by
      intro c hc
      exact hfn c (h1 ▸ hc)
    have hnne : n ≠ "" := h1 ▸ hfne
    have hkeychar : key = lowerStr r.filename := by
      rw [hkey, List.cons_append, combine_empty_cons, makeKey_false_eq,
        basenameStr_combine_concat _ n hnne hnsep, h1]
    have hqkey : makeKey false q = key := by
      rw [makeKey_false_eq, basenameStr_sepFree hq, hlow, ← hkeychar]
    refine ⟨"", ?_, r, ?_, hadm⟩
    · rw [applyOp_addRootFolder_roots]
      exact hroot
    · rw [recordsAt, applyOp_addRootFolder_sbrp, hsb, makeKey_empty_root, hqkey,
        applyOp_addRootFolder_map]
      exact mem_lookupKey_mapAppendMany hmem
  · intro st rootName tree key q r hsb hmem hadm hroot hq hlow
    rw [existsQ, findFileRecord_isSome_iff]
    have hqkey : makeKey true q = key := by
      rw [makeKey_true_eq_of_bsFree hq, hlow]
    refine ⟨"", ?_, r, ?_, hadm⟩
    · rw [applyOp_addRootFolder_roots]
      exact hroot
    · rw [recordsAt, applyOp_addRootFolder_sbrp, hsb, makeKey_empty_root, hqkey,
        applyOp_addRootFolder_map]
      exact mem_lookupKey_mapAppendMany hmem

def c3WitTree1 : DirTree := .consFile "Demo.PNG" (some 4) .nilEntries

def c3WitRec1 : FileRecord :=
  { filename := "Demo.PNG"
    fileType := .RegularFile
    size := 4
    languageId := ""
    category := ""
    filePath := "root/Demo.PNG"
    relativePath := "Demo.PNG"
    zipFilePath := ""
    zipFilePos := 0 }

def c3WitBase2 : ManagerState := applyOps initState [.setSearchByRelativePaths true]

def c3WitTree2 : DirTree :=
  .consDirOk "Sub" (.consFile "a.PNG" (some 1) .nilEntries) .nilEntries

def c3WitRec2 : FileRecord :=
  { filename := "a.PNG"
    fileType := .RegularFile
    size := 1
    languageId := ""
    category := ""
    filePath := "root/Sub/a.PNG"
    relativePath := "Sub/a.PNG"
    zipFilePath := ""
    zipFilePos := 0 }

/-- Witness for `c3_amended_exists_lookup`: case-insensitive bare-name
lookup of `Demo.PNG`, and case-insensitive relative-path lookup of
`Sub/a.PNG` under `searchByRelativePaths`. -/
theorem c3_amended_witness :
    existsQ (applyOp initState (.addRootFolder "root" c3WitTree1)) "DEMO.png" = true ∧
    existsQ (applyOp c3WitBase2 (.addRootFolder "root" c3WitTree2)) "SUB/a.png" = true :=
  ⟨c3_amended_exists_lookup.1 initState "root" c3WitTree1 "demo.png" "DEMO.png" c3WitRec1
      (by decide) (by decide) (by decide) (by decide) (by decide) (by decide)
      (by decide) (by decide),
   c3_amended_exists_lookup.2 c3WitBase2 "root" c3WitTree2 "sub/a.png" "SUB/a.png" c3WitRec2
      (by decide) (by decide) (by decide) (by decide) (by decide) (by decide)⟩

/-! ## Claim C10 -/

/-- C10.  A record indexed from a file whose size query failed (stat
oracle `none`, so `getFileSize` returns `-1`) stores the unsigned
conversion of `-1`, which is the maximum `size_t` value `2 ^ 64 - 1`;
`getSize` on a filename resolving to such a record returns that value,
which is neither 0 nor negative (the return type is unsigned), and the
owned-buffer `readData` variant requests an allocation of exactly that
size. -/
theorem c10_stat_failure_size :
    (∀ (lm cm : List (String × String)) (sbrp : Bool) (t : DirTree)
        (rf relF m lang cat key : String) (r : FileRecord),
      (key, r) ∈ walkEntries lm cm sbrp rf relF m lang cat t →
      ∃ ds n sz, FileAt t ds n sz ∧ r.size = toSizeT (getFileSizeModel sz) ∧
        (sz = none → r.size = 2 ^ sizeTBits - 1)) ∧
    (∀ (st : ManagerState) (q : String) (r : FileRecord) (n : Nat),
      findFileRecord st q = some r →
      r.size = 2 ^ sizeTBits - 1 →
      getSize st q = 2 ^ sizeTBits - 1 ∧ 2 ^ sizeTBits - 1 ≠ 0 ∧
        (readDataOwned st q n).allocSize = some (2 ^ sizeTBits - 1)) := by
  constructor
  · intro lm cm sbrp t rf relF m lang cat key r h
    obtain ⟨ds, n, sz, hfa, _, _, h3, _⟩ :=
      walk_key_char lm cm sbrp t rf relF m lang cat key r h
    refine ⟨ds, n, sz, hfa, h3, ?_⟩
    intro hsz
    rw [h3, hsz]
    decide
  · intro st q r n hfind hsz
    refine ⟨?_, by decide, ?_⟩
    · unfold getSize
      rw [hfind]
      exact hsz
    · unfold readDataOwned
      rw [hfind]
      show some r.size = some (2 ^ sizeTBits - 1)
      rw [hsz]

def c10State : ManagerState :=
  applyOps initState [.addRootFolder "root" (.consFile "bad.png" none .nilEntries)]

def c10Record : FileRecord :=
  { filename := "bad.png"
    fileType := .RegularFile
    size := 18446744073709551615
    languageId := ""
    category := ""
    filePath := "root/bad.png"
    relativePath := "bad.png"
    zipFilePath := ""
    zipFilePos := 0 }

/-- Witness for `c10_stat_failure_size` on a file whose stat fails. -/
theorem c10_stat_failure_size_witness :
    (∃ ds n sz, FileAt (.consFile "bad.png" none .nilEntries) ds n sz ∧
      c10Record.size = toSizeT (getFileSizeModel sz) ∧
      (sz = none → c10Record.size = 2 ^ sizeTBits - 1)) ∧
    (getSize c10State "bad.png" = 2 ^ sizeTBits - 1 ∧ 2 ^ sizeTBits - 1 ≠ 0 ∧
      (readDataOwned c10State "bad.png" 0).allocSize = some (2 ^ sizeTBits - 1)) :=
  ⟨c10_stat_failure_size.1 [] [] false (.consFile "bad.png" none .nilEntries)
      "root" "" "" "" "" "bad.png" c10Record (by decide),
   c10_stat_failure_size.2 c10State "bad.png" c10Record 0 (by decide) (by decide)⟩

end TestFileManager
